import Mathlib

/-!
Verification of the dejavu GML runtime against its specification.

The development shallowly embeds the relevant parts of the repository:

* `src/gml/src/vm/value.rs` — the NaN-boxed `Value` representation
  (`Vm` namespace).  A `Value` is a single 64-bit word, modelled as a
  `Nat` below `2 ^ 64`; `f64` values are modelled by their IEEE-754 bit
  patterns, since the Rust code only ever transmutes them.
* `src/src/front/parser.rs` — the statement/expression parser
  (`Front` namespace).
* `src/src/back/ssa.rs` — the SSA instruction vocabulary (`Ssa`
  namespace).
* `src/gml/src/lib.rs` — the `build` registration function (`Gml`
  namespace).
-/

set_option maxRecDepth 8000

namespace Vm

/-- Result of discriminating a value, from `Value::data` in
`src/gml/src/vm/value.rs`.  `Real` carries the 64-bit word itself (the
bit pattern of the `f64`), `String` the 48-bit payload interpreted as a
symbol, `Array` the 48-bit payload interpreted as a pointer. -/
inductive Data where
  | Real (bits : Nat)
  | String (sym : Nat)
  | Array (ptr : Nat)
deriving DecidableEq

/-- Outcome of `Value::data`: either one of the three variants, or the
`unreachable!("corrupt value")` branch. -/
inductive DataResult where
  | ok (d : Data)
  | corrupt
deriving DecidableEq

/-- Embedding of `Value::data` (value.rs lines 43-57).  The word is split
into `tag = value >> 48` and `payload = value & ((1 << 48) - 1)`; if
`tag & !0xf != 0xfff0` the word is an `f64`, otherwise the low 4 tag bits
select the variant.  Rust's `!0xf` on `u64` is `2 ^ 64 - 16`. -/
def Value.data (v : Nat) : DataResult :=
  let tag := v >>> 48
  let payload := v &&& ((1 <<< 48) - 1)
  if tag &&& (2 ^ 64 - 16) ≠ 0xfff0 then
    DataResult.ok (Data.Real v)
  else
    match tag &&& 0xf with
    | 0x0 => DataResult.ok (Data.String payload)
    | 0x1 => DataResult.ok (Data.Array payload)
    | _ => DataResult.corrupt

/-- Embedding of `impl From<f64> for Value` (value.rs lines 86-93): a raw
transmute of the bit pattern, with no canonicalization (the source has a
`TODO: check for non-canonical NaNs`). -/
def Value.from_f64 (bits : Nat) : Nat := bits

/-- Embedding of `impl TryFrom<Value> for f64` (value.rs lines 152-161):
succeeds exactly on the `Data::Real` discrimination and returns the
`f64` (as its bit pattern). -/
def Value.try_into_f64 (v : Nat) : Option Nat :=
  match Value.data v with
  | DataResult.ok (Data.Real i) => some i
  | _ => none

/-- An `f64` bit pattern is finite (neither infinite nor NaN) iff its
exponent field — bits 52..62 — is not all ones.  This is the IEEE-754
notion of finiteness referenced by the specification; it is not code of
the repository. -/
def f64IsFinite (bits : Nat) : Bool :=
  ((bits >>> 52) &&& 0x7ff) != 0x7ff

/-- Bit arithmetic behind `tag & !0xf`: masking with `2 ^ 64 - 16` keeps
bits 4..63 of the operand. -/
theorem and_hi_mask (t : Nat) : t &&& (2 ^ 64 - 16) = ((t >>> 4) % 2 ^ 60) <<< 4 := by
  have hm : (2 ^ 64 - 16 : Nat) = (2 ^ 60 - 1) <<< 4 := by decide
  apply Nat.eq_of_testBit_eq
  intro i
  rw [hm, Nat.testBit_and, Nat.testBit_shiftLeft, Nat.testBit_shiftLeft,
    Nat.testBit_two_pow_sub_one, Nat.testBit_mod_two_pow, Nat.testBit_shiftRight]
  by_cases h4 : 4 ≤ i
  · have h44 : 4 + (i - 4) = i := by omega
    rw [h44]
    by_cases h60 : i - 4 < 60 <;> simp [h4, h60, ge_iff_le, Bool.and_comm]
  · simp [h4, ge_iff_le]

/-- Key tag arithmetic: for a 16-bit tag, clearing the low 4 bits yields
`0xfff0` exactly when the tag lies in `0xfff0..=0xffff`. -/
theorem tag_mask_iff (t : Nat) (h : t < 65536) :
    (t &&& (2 ^ 64 - 16) = 0xfff0) ↔ 0xfff0 ≤ t := by
  rw [and_hi_mask, Nat.shiftRight_eq_div_pow, Nat.shiftLeft_eq]
  show (t / 2 ^ 4 % 2 ^ 60) * 2 ^ 4 = 65520 ↔ 65520 ≤ t
  norm_num
  omega

theorem shiftRight_48_lt {v : Nat} (h : v < 2 ^ 64) : v >>> 48 < 65536 := by
  rw [Nat.shiftRight_eq_div_pow]
  omega

theorem shiftRight_52_eq (v : Nat) : v >>> 52 = (v >>> 48) >>> 4 := by
  rw [Nat.shiftRight_eq_div_pow, Nat.shiftRight_eq_div_pow, Nat.shiftRight_eq_div_pow,
    Nat.div_div_eq_div_mul]

/-- C1: converting a finite, non-NaN `f64` to a `Value` and back is the
identity.  A finite bit pattern has exponent field below `0x7ff`, so its
top 16 bits cannot lie in the boxed-tag range `0xfff0..=0xffff` and
`Value::data` discriminates it as `Data::Real` with the same bits. -/
theorem value_f64_roundtrip (bits : Nat) (h64 : bits < 2 ^ 64)
    (hfin : f64IsFinite bits = true) :
    Value.try_into_f64 (Value.from_f64 bits) = some bits := by
  have htag : ¬ (bits >>> 48) &&& (2 ^ 64 - 16) = 0xfff0 := by
    intro hmask
    have ht16 : bits >>> 48 < 65536 := shiftRight_48_lt h64
    have hge : 0xfff0 ≤ bits >>> 48 := (tag_mask_iff _ ht16).mp hmask
    have hdiv : (bits >>> 48) >>> 4 = 0xfff := by
      rw [Nat.shiftRight_eq_div_pow]
      omega
    have hexp : (bits >>> 52) &&& 0x7ff = 0x7ff := by
      rw [shiftRight_52_eq, hdiv]
      decide
    rw [f64IsFinite, hexp] at hfin
    simp at hfin
  simp only [Value.from_f64, Value.try_into_f64, Value.data]
  rw [if_pos htag]

/-- Closed instance of `value_f64_roundtrip` at the bit pattern of
`1.5`. -/
theorem value_f64_roundtrip_witness :
    Value.try_into_f64 (Value.from_f64 0x3ff8000000000000) = some 0x3ff8000000000000 :=
  value_f64_roundtrip 0x3ff8000000000000 (by decide) (by decide)

/-- C2: the `unreachable!("corrupt value")` branch of `Value::data` IS
reachable through the safe constructor `Value::from(f64)`: the negative
signalling NaN with bit pattern `0xfff2_0000_0000_0000` is boxed with
tag nibble `0x2`, which matches neither the string nor the array tag.
The claim (and the code's own `unreachable!` assertion) says this never
happens; `impl From<f64>` fails to canonicalize NaNs (its `TODO`). -/
theorem data_corrupt_reachable :
    Value.data (Value.from_f64 0xfff2000000000000) = DataResult.corrupt := by
  decide

/-- C3: `Value::from(f64)` does not always produce a value that
discriminates as `Data::Real`: negative infinity (bit pattern
`0xfff0_0000_0000_0000`) collides with the string tag `0x0`, so
`Value::data` reports `Data::String` with payload `0`. -/
theorem from_f64_neg_inf_is_string :
    Value.data (Value.from_f64 0xfff0000000000000) = DataResult.ok (Data.String 0) := by
  decide

/-- C9: equality on `Value` is bit-for-bit equality of the underlying
64-bit word (the Rust type derives `PartialEq` on the `u64`), not
IEEE-754 equality: `0.0` (bits `0`) and `-0.0` (bits `2 ^ 63`) give
unequal values, while the canonical NaN (bits `0x7ff8_0000_0000_0000`)
gives a value equal to itself. -/
theorem value_eq_is_bit_eq :
    Value.from_f64 0x0000000000000000 ≠ Value.from_f64 0x8000000000000000 ∧
    Value.from_f64 0x7ff8000000000000 = Value.from_f64 0x7ff8000000000000 :=
  ⟨by decide, rfl⟩

end Vm

namespace Ssa

/-- SSA value reference, `ssa::Value(u32)` in `src/src/back/ssa.rs`. -/
abbrev Value := Nat

/-- Basic block reference, `ssa::Block(u32)`. -/
abbrev Block := Nat

/-- Interned identifier; equality on the interned index is equality on
the underlying string. -/
abbrev Symbol := String

/-- Embedding of `ssa::Constant`.  The `f64` payload is modelled as a
rational, which is exact for every constant the front end produces. -/
inductive Constant where
  | Real (r : ℚ)
  | String (s : Symbol)
deriving DecidableEq

/-- Embedding of `ssa::Unary`. -/
inductive Unary where
  | Negate
  | Invert
  | BitInvert
  | With
  | Next
  | ToArray
  | ToScalar
deriving DecidableEq

/-- Embedding of `ssa::Binary`. -/
inductive Binary where
  | Lt
  | Le
  | Eq
  | Ne
  | Ge
  | Gt
  | Add
  | Subtract
  | Multiply
  | Divide
  | Div
  | Mod
  | And
  | Or
  | Xor
  | BitAnd
  | BitOr
  | BitXor
  | ShiftLeft
  | ShiftRight
  | LoadRow
  | LoadIndex
  | StoreRow
deriving DecidableEq

/-- Embedding of `ssa::Inst` (ssa.rs lines 111-151).  Fixed-size Rust
arrays `[Value; 2]` and `[Value; 3]` are modelled as products, `Vec`s as
lists. -/
inductive Inst where
  | Undef
  | Alias (v : Value)
  | Immediate (value : Constant)
  | Unary (op : Unary) (arg : Value)
  | Binary (op : Binary) (args : Value × Value)
  | Argument
  | DeclareGlobal (symbol : Symbol)
  | Lookup (symbol : Symbol)
  | Read (symbol : Symbol) (arg : Value)
  | Write (args : Value × Value)
  | LoadField (scope : Value) (field : Symbol)
  | LoadFieldDefault (scope : Value) (field : Symbol)
  | LoadFieldArray (scope : Value) (field : Symbol)
  | StoreField (args : Value × Value) (field : Symbol)
  | StoreIndex (args : Value × Value × Value)
  | Release (arg : Value)
  | Call (symbol : Symbol) (args : List Value) (parameters : List Value)
  | Return (arg : Value)
  | Jump (target : Block) (args : List Value)
  | Branch (targets : Block × Block) (arg_lens : Nat × Nat) (args : List Value)
deriving DecidableEq

/-- Embedding of `Inst::arguments` (ssa.rs lines 154-182): the operand
values of each instruction, in the source's slice order. -/
def Inst.arguments : Inst → List Value
  | .Unary _ arg => [arg]
  | .Binary _ args => [args.1, args.2]
  | .Read _ arg => [arg]
  | .Write args => [args.1, args.2]
  | .LoadField scope _ => [scope]
  | .LoadFieldDefault scope _ => [scope]
  | .LoadFieldArray scope _ => [scope]
  | .StoreField args _ => [args.1, args.2]
  | .StoreIndex args => [args.1, args.2.1, args.2.2]
  | .Release arg => [arg]
  | .Call _ args _ => args
  | .Return arg => [arg]
  | .Jump _ args => args
  | .Branch _ _ args => args
  | .Undef | .Alias _ | .Immediate _ | .Argument | .DeclareGlobal _ | .Lookup _ => []

/-- Embedding of `Inst::arguments_mut` (ssa.rs lines 184-212): the
slice of operand cells handed out for mutation, transcribed arm by arm
from its own `match`. -/
def Inst.arguments_mut : Inst → List Value
  | .Unary _ arg => [arg]
  | .Binary _ args => [args.1, args.2]
  | .Read _ arg => [arg]
  | .Write args => [args.1, args.2]
  | .LoadField scope _ => [scope]
  | .LoadFieldDefault scope _ => [scope]
  | .LoadFieldArray scope _ => [scope]
  | .StoreField args _ => [args.1, args.2]
  | .StoreIndex args => [args.1, args.2.1, args.2.2]
  | .Release arg => [arg]
  | .Call _ args _ => args
  | .Return arg => [arg]
  | .Jump _ args => args
  | .Branch _ _ args => args
  | .Undef | .Alias _ | .Immediate _ | .Argument | .DeclareGlobal _ | .Lookup _ => []

/-- C10: for every SSA instruction the mutable and immutable operand
accessors agree — same length, same values, same order. -/
theorem arguments_mut_eq_arguments (i : Inst) : i.arguments_mut = i.arguments := by
  cases i <;> rfl

end Ssa

namespace Gml

abbrev Symbol := String

/-- Modelled from the spec: the compilation pipeline invoked by
`compile` (lib.rs lines 69-80) — lexer, parser, front and back codegen,
`vm::code` — produces "script bytecode" and "debug side tables"; those
crates are not among the sources under verification, so the two outputs
are modelled as opaque records tagging the compiled source. -/
structure CodeFunction where
  source : String
deriving DecidableEq

/-- Modelled from the spec: debug side table produced by compiling one
script (see `CodeFunction`). -/
structure CodeDebug where
  source : String
deriving DecidableEq

/-- Embedding of `ssa::Prototype` as used by `build` (lib.rs lines
39-45). -/
inductive Prototype where
  | Script
  | Native (arity : Nat) (variadic : Bool)
  | Member
deriving DecidableEq

/-- Embedding of `Item` (lib.rs lines 28-32).  The host function
pointer types `vm::ApiFunction`, `vm::GetFunction`, `vm::SetFunction`
are opaque to `build` and become type parameters. -/
inductive Item (F G S : Type) where
  | Script (source : String)
  | Native (f : F) (arity : Nat) (variadic : Bool)
  | Member (get : Option G) (set : Option S)

/-- Embedding of `vm::Resources` as used by `build`: five symbol-keyed
tables.  The `HashMap`s are modelled as association lists; `build` only
ever inserts fresh keys, so membership is the faithful notion. -/
structure Resources (F G S : Type) where
  scripts : List (Symbol × CodeFunction)
  debug : List (Symbol × CodeDebug)
  api : List (Symbol × F)
  get : List (Symbol × G)
  set : List (Symbol × S)

/-- Counterpart of `vm::Resources::default()`: all five tables empty. -/
def Resources.empty {F G S : Type} : Resources F G S :=
  ⟨[], [], [], [], []⟩

/-- Modelled from the spec (see `CodeFunction`): `compile` returns the
bytecode function and the debug table for one script source.  Only the
fact that it returns one entry of each, unconditionally, matters to
`build`. -/
def compile (prototypes : List (Symbol × Prototype)) (source : String) :
    CodeFunction × CodeDebug :=
  let _ := prototypes
  (⟨source⟩, ⟨source⟩)

/-- One iteration of the `for (&name, item) in items.iter()` loop of
`build` (lib.rs lines 48-64). -/
def buildStep {F G S : Type} (prototypes : List (Symbol × Prototype))
    (resources : Resources F G S) (p : Symbol × Item F G S) : Resources F G S :=
  match p.2 with
  | .Script source =>
      let fd := compile prototypes source
      { resources with
        scripts := (p.1, fd.1) :: resources.scripts
        debug := (p.1, fd.2) :: resources.debug }
  | .Native f _ _ => { resources with api := (p.1, f) :: resources.api }
  | .Member g s =>
      let resources := match g with
        | some g => { resources with get := (p.1, g) :: resources.get }
        | none => resources
      match s with
      | some s => { resources with set := (p.1, s) :: resources.set }
      | none => resources

/-- Embedding of `build` (lib.rs lines 35-67): derive the prototype of
every item, then fold the item map into a `Resources` bundle.  The item
map is modelled as an association list with the `HashMap`'s key
uniqueness left implicit, since only key membership is at stake. -/
def build {F G S : Type} (items : List (Symbol × Item F G S)) : Resources F G S :=
  let prototypes : List (Symbol × Prototype) := items.map (fun p =>
    (p.1, match p.2 with
      | .Script _ => Prototype.Script
      | .Native _ arity variadic => Prototype.Native arity variadic
      | .Member _ _ => Prototype.Member))
  items.foldl (buildStep prototypes) Resources.empty

/-- Generic key-membership lemma for one table of the `build` fold: if
each step either leaves the table untouched (for items the table does
not record) or conses exactly the item's own key (for items it does),
then after the fold a key is present iff it was present initially or
some recorded item carries it. -/
theorem foldl_table_mem {F G S : Type} {α : Type} (protos : List (Symbol × Prototype))
    (T : Resources F G S → List (Symbol × α)) (addable : Item F G S → Prop)
    (hstep : ∀ (acc : Resources F G S) (name : Symbol) (item : Item F G S),
      (T (buildStep protos acc (name, item)) = T acc ∧ ¬ addable item) ∨
      (∃ v, T (buildStep protos acc (name, item)) = (name, v) :: T acc ∧ addable item))
    (items : List (Symbol × Item F G S)) (acc : Resources F G S) (s : Symbol) :
    (∃ e, (s, e) ∈ T (items.foldl (buildStep protos) acc)) ↔
      ((∃ e, (s, e) ∈ T acc) ∨ ∃ item, (s, item) ∈ items ∧ addable item) := by
  induction items generalizing acc with
  | nil => simp
  | cons p rest ih =>
    obtain ⟨name, item⟩ := p
    rw [List.foldl_cons, ih]
    rcases hstep acc name item with ⟨heq, hno⟩ | ⟨v, heq, hyes⟩
    · rw [heq]
      simp only [List.mem_cons, Prod.mk.injEq]
      constructor
      · rintro (h | ⟨it, hm, ha⟩)
        · exact Or.inl h
        · exact Or.inr ⟨it, Or.inr hm, ha⟩
      · rintro (h | ⟨it, (⟨h1, h2⟩ | hm), ha⟩)
        · exact Or.inl h
        · exact absurd (h2 ▸ ha) hno
        · exact Or.inr ⟨it, hm, ha⟩
    · rw [heq]
      simp only [List.mem_cons, Prod.mk.injEq]
      constructor
      · rintro (⟨e, ⟨h1, _⟩ | hm⟩ | ⟨it, hm, ha⟩)
        · exact Or.inr ⟨item, Or.inl ⟨h1, rfl⟩, hyes⟩
        · exact Or.inl ⟨e, hm⟩
        · exact Or.inr ⟨it, Or.inr hm, ha⟩
      · rintro (⟨e, hm⟩ | ⟨it, (⟨h1, _⟩ | hm), ha⟩)
        · exact Or.inl ⟨e, Or.inr hm⟩
        · exact Or.inl ⟨v, Or.inl ⟨h1, rfl⟩⟩
        · exact Or.inr ⟨it, hm, ha⟩

/-- C8: `build` keys the tables exactly right — every `Script` symbol
appears in both the scripts and debug tables, every `Native` symbol in
the api table, every `Member` symbol in the getter (resp. setter) table
exactly when its getter (resp. setter) is present, and no other symbols
appear in any of the five tables. -/
theorem build_resources_keys {F G S : Type} (items : List (Symbol × Item F G S))
    (s : Symbol) :
    ((∃ e, (s, e) ∈ (build items).scripts) ↔ (∃ src, (s, Item.Script src) ∈ items)) ∧
    ((∃ e, (s, e) ∈ (build items).debug) ↔ (∃ src, (s, Item.Script src) ∈ items)) ∧
    ((∃ e, (s, e) ∈ (build items).api) ↔
      (∃ f a v, (s, Item.Native f a v) ∈ items)) ∧
    ((∃ e, (s, e) ∈ (build items).get) ↔
      (∃ g st, (s, Item.Member (some g) st) ∈ items)) ∧
    ((∃ e, (s, e) ∈ (build items).set) ↔
      (∃ g st, (s, Item.Member g (some st)) ∈ items)) := by
  unfold build
  refine ⟨?_, ?_, ?_, ?_, ?_⟩
  · rw [foldl_table_mem _ Resources.scripts (fun item => ∃ src, item = Item.Script src)]
    · simp only [Resources.empty, List.not_mem_nil, exists_false, false_or]
      constructor
      · rintro ⟨it, hm, src, rfl⟩
        exact ⟨src, hm⟩
      · rintro ⟨src, hm⟩
        exact ⟨_, hm, src, rfl⟩
    · intro acc name item
      cases item with
      | Script source => exact Or.inr ⟨_, rfl, _, rfl⟩
      | Native f a v => exact Or.inl ⟨rfl, by simp⟩
      | Member g st =>
        refine Or.inl ⟨?_, by simp⟩
        cases g <;> cases st <;> rfl
  · rw [foldl_table_mem _ Resources.debug (fun item => ∃ src, item = Item.Script src)]
    · simp only [Resources.empty, List.not_mem_nil, exists_false, false_or]
      constructor
      · rintro ⟨it, hm, src, rfl⟩
        exact ⟨src, hm⟩
      · rintro ⟨src, hm⟩
        exact ⟨_, hm, src, rfl⟩
    · intro acc name item
      cases item with
      | Script source => exact Or.inr ⟨_, rfl, _, rfl⟩
      | Native f a v => exact Or.inl ⟨rfl, by simp⟩
      | Member g st =>
        refine Or.inl ⟨?_, by simp⟩
        cases g <;> cases st <;> rfl
  · rw [foldl_table_mem _ Resources.api (fun item => ∃ f a v, item = Item.Native f a v)]
    · simp only [Resources.empty, List.not_mem_nil, exists_false, false_or]
      constructor
      · rintro ⟨it, hm, f, a, v, rfl⟩
        exact ⟨f, a, v, hm⟩
      · rintro ⟨f, a, v, hm⟩
        exact ⟨_, hm, f, a, v, rfl⟩
    · intro acc name item
      cases item with
      | Script source => exact Or.inl ⟨rfl, by simp⟩
      | Native f a v => exact Or.inr ⟨_, rfl, f, a, v, rfl⟩
      | Member g st =>
        refine Or.inl ⟨?_, by simp⟩
        cases g <;> cases st <;> rfl
  · rw [foldl_table_mem _ Resources.get
      (fun item => ∃ g st, item = Item.Member (some g) st)]
    · simp only [Resources.empty, List.not_mem_nil, exists_false, false_or]
      constructor
      · rintro ⟨it, hm, g, st, rfl⟩
        exact ⟨g, st, hm⟩
      · rintro ⟨g, st, hm⟩
        exact ⟨_, hm, g, st, rfl⟩
    · intro acc name item
      cases item with
      | Script source => exact Or.inl ⟨rfl, by simp⟩
      | Native f a v => exact Or.inl ⟨rfl, by simp⟩
      | Member g st =>
        cases g with
        | none => exact Or.inl ⟨by cases st <;> rfl, by simp⟩
        | some g =>
          refine Or.inr ⟨g, ?_, g, st, rfl⟩
          cases st <;> rfl
  · rw [foldl_table_mem _ Resources.set
      (fun item => ∃ g st, item = Item.Member g (some st))]
    · simp only [Resources.empty, List.not_mem_nil, exists_false, false_or]
      constructor
      · rintro ⟨it, hm, g, st, rfl⟩
        exact ⟨g, st, hm⟩
      · rintro ⟨g, st, hm⟩
        exact ⟨_, hm, g, st, rfl⟩
    · intro acc name item
      cases item with
      | Script source => exact Or.inl ⟨rfl, by simp⟩
      | Native f a v => exact Or.inl ⟨rfl, by simp⟩
      | Member g st =>
        cases st with
        | none => exact Or.inl ⟨by cases g <;> rfl, by simp⟩
        | some st =>
          refine Or.inr ⟨st, ?_, g, st, rfl⟩
          cases g <;> rfl

end Gml

namespace Front

/-- Interned identifier (`Symbol`): equality on the interner index is
string equality, so symbols are modelled as strings. -/
abbrev Sym := String

/-- Byte span `[low, high)` into the source, from `front::Span`. -/
structure Span where
  low : Nat
  high : Nat
deriving DecidableEq

/-- Modelled from the spec (§4.1) and the parser's uses: bracket
delimiter kinds of `front::token::Delim`. -/
inductive Delim where
  | Paren
  | Bracket
  | Brace
deriving DecidableEq

/-- Modelled from the spec (§4.1): the binary-operator token payload
`front::token::BinOp`. -/
inductive BinOp where
  | Plus
  | Minus
  | Star
  | Slash
  | Ampersand
  | Pipe
  | Caret
deriving DecidableEq

/-- Modelled from the spec (§4.1) and `symbol::keyword`: the reserved
keyword symbols the parser dispatches on. -/
inductive Keyword where
  | Var
  | GlobalVar
  | Begin
  | End
  | If
  | Then
  | Else
  | Repeat
  | While
  | With
  | Do
  | Until
  | For
  | Switch
  | Case
  | Default
  | Break
  | Continue
  | Exit
  | Return
  | True
  | False
  | Self_
  | Other
  | All
  | NoOne
  | Global
  | Local
  | Not
  | Div
  | Mod
  | And
  | Or
  | Xor
deriving DecidableEq

/-- Modelled from the spec (§4.1): the token vocabulary
`front::token::Token` consumed by the parser (the lexer itself is not
among the sources under verification). -/
inductive Token where
  | Eof
  | Ident (s : Sym)
  | Real (s : Sym)
  | String (s : Sym)
  | Keyword (k : Keyword)
  | OpenDelim (d : Delim)
  | CloseDelim (d : Delim)
  | BinOp (op : BinOp)
  | BinOpEq (op : BinOp)
  | Eq
  | EqEq
  | ColonEq
  | Ne
  | Lt
  | Le
  | Gt
  | Ge
  | And
  | Or
  | Xor
  | Shl
  | Shr
  | Bang
  | Tilde
  | Dot
  | Comma
  | Semicolon
  | Colon
deriving DecidableEq

/-- The source text of a keyword symbol, used when the parser treats a
keyword as an ordinary identifier (`parse_prefix_expression`). -/
def keywordSym : Keyword → Sym
  | .Var => "var"
  | .GlobalVar => "globalvar"
  | .Begin => "begin"
  | .End => "end"
  | .If => "if"
  | .Then => "then"
  | .Else => "else"
  | .Repeat => "repeat"
  | .While => "while"
  | .With => "with"
  | .Do => "do"
  | .Until => "until"
  | .For => "for"
  | .Switch => "switch"
  | .Case => "case"
  | .Default => "default"
  | .Break => "break"
  | .Continue => "continue"
  | .Exit => "exit"
  | .Return => "return"
  | .True => "true"
  | .False => "false"
  | .Self_ => "self"
  | .Other => "other"
  | .All => "all"
  | .NoOne => "noone"
  | .Global => "global"
  | .Local => "local"
  | .Not => "not"
  | .Div => "div"
  | .Mod => "mod"
  | .And => "and"
  | .Or => "or"
  | .Xor => "xor"

namespace Ast

/-- Modelled from the parser's uses of `ast::Op`: arithmetic/bitwise
operator kinds shared by compound assignment and binary expressions. -/
inductive Op where
  | Add
  | Subtract
  | Multiply
  | Divide
  | BitAnd
  | BitOr
  | BitXor
deriving DecidableEq

/-- Modelled from the parser's uses of `ast::Unary`. -/
inductive Unary where
  | Positive
  | Negate
  | Invert
  | BitInvert
deriving DecidableEq

/-- Modelled from the parser's uses of `ast::Binary`. -/
inductive Binary where
  | Lt
  | Le
  | Eq
  | Ne
  | Ge
  | Gt
  | Op (op : Op)
  | Div
  | Mod
  | And
  | Or
  | Xor
  | ShiftLeft
  | ShiftRight
deriving DecidableEq

/-- Modelled from the parser's uses of `ast::Value`.  The `f64` payload
of a real literal is modelled as a rational, exact for every literal
the claims exercise. -/
inductive Value where
  | Ident (s : Sym)
  | Real (r : ℚ)
  | String (s : Sym)
deriving DecidableEq

/-- Modelled from the parser's uses of `ast::Expr` and `ast::Call`.
Rust's boxed `(Expr, Span)` pairs are flattened into adjacent fields;
`Call(ast::Call)` is inlined as callee + span + arguments. -/
inductive Expr where
  | Value (v : Value)
  | Unary (op : Unary) (e : Expr) (esp : Span)
  | Binary (op : Binary) (l : Expr) (lsp : Span) (r : Expr) (rsp : Span)
  | Field (e : Expr) (esp : Span) (field : Sym) (fsp : Span)
  | Index (e : Expr) (esp : Span) (args : List (Expr × Span))
  | Call (f : Expr) (fsp : Span) (args : List (Expr × Span))

/-- Modelled from the parser's uses of `ast::Declare`. -/
inductive Declare where
  | Local
  | Global
deriving DecidableEq

/-- Modelled from the parser's uses of `ast::Jump`. -/
inductive Jump where
  | Break
  | Continue
  | Exit
deriving DecidableEq

/-- Modelled from the parser's uses of `ast::Stmt`; boxed pairs are
flattened as in `Expr`, and `Invoke(ast::Call)` is inlined. -/
inductive Stmt where
  | Assign (op : Option Op) (lhs : Expr) (lsp : Span) (rhs : Expr) (rsp : Span)
  | Invoke (f : Expr) (fsp : Span) (args : List (Expr × Span))
  | Declare (d : Declare) (idents : List (Sym × Span))
  | Block (stmts : List (Stmt × Span))
  | If (cond : Expr) (csp : Span) (t : Stmt) (tsp : Span) (e : Option (Stmt × Span))
  | Repeat (count : Expr) (csp : Span) (body : Stmt) (bsp : Span)
  | While (cond : Expr) (csp : Span) (body : Stmt) (bsp : Span)
  | With (scope : Expr) (ssp : Span) (body : Stmt) (bsp : Span)
  | Do (body : Stmt) (bsp : Span) (cond : Expr) (csp : Span)
  | For (init : Stmt) (isp : Span) (cond : Expr) (csp : Span)
        (next : Stmt) (nsp : Span) (body : Stmt) (bsp : Span)
  | Switch (e : Expr) (esp : Span) (body : List (Stmt × Span))
  | Jump (j : Jump)
  | Return (e : Expr) (esp : Span)
  | Case (e : Option (Expr × Span))
  | Error (e : Expr)

end Ast

/-- Parser state, from the `Parser` struct fields (parser.rs lines
8-14): the remaining token stream (the `Lexer`, which yields `Eof` with
a fixed span once exhausted), the current token and its span, and the
diagnostics delivered so far to the error handler. -/
structure Pstate where
  reader : List (Token × Span)
  eofSpan : Span
  current : Token
  span : Span
  errors : List (Span × String)

/-- Embedding of `Parser::advance_token` (parser.rs lines 520-527):
pull the next token from the reader, return the previous current token
and span. -/
def advanceToken (s : Pstate) : (Token × Span) × Pstate :=
  let next := match s.reader with
    | [] => (Token.Eof, s.eofSpan)
    | t :: _ => t
  ((s.current, s.span),
   { s with reader := s.reader.tail, current := next.1, span := next.2 })

/-- Record a diagnostic, modelling a call to the error handler. -/
def err (sp : Span) (msg : String) (s : Pstate) : Pstate :=
  { s with errors := s.errors ++ [(sp, msg)] }

/-- Embedding of `Parser::expect` (parser.rs lines 510-518). -/
def expect (token : Token) (s : Pstate) : Bool × Pstate :=
  if s.current = token then (true, (advanceToken s).2)
  else (false, err s.span "unexpected _; expected _" s)

/-- Modelled from the spec (§4.1): value of a hexadecimal digit. -/
def hexDigit? (c : Char) : Option Nat :=
  if '0' ≤ c ∧ c ≤ '9' then some (c.toNat - '0'.toNat)
  else if 'a' ≤ c ∧ c ≤ 'f' then some (c.toNat - 'a'.toNat + 10)
  else if 'A' ≤ c ∧ c ≤ 'F' then some (c.toNat - 'A'.toNat + 10)
  else none

def hexLoop : List Char → Nat → Option Nat
  | [], acc => some acc
  | c :: cs, acc =>
    match hexDigit? c with
    | some d => hexLoop cs (acc * 16 + d)
    | none => none

/-- Modelled from the spec (§4.1): `u64::from_str_radix(_, 16)` on the
digits after `$`; fails on an empty or non-hex string. -/
def hexToNat? (cs : List Char) : Option Nat :=
  match cs with
  | [] => none
  | _ => hexLoop cs 0

def decDigitsVal (cs : List Char) : Nat :=
  cs.foldl (fun acc c => acc * 10 + (c.toNat - '0'.toNat)) 0

/-- Modelled from the spec (§4.1): `f64::from_str` on a decimal real
literal, `digits [. digits]` with at least one digit; the resulting
value is modelled exactly as a rational (`f64` rounding of long
literals is not modelled — no claim exercises it). -/
def decToRat? (str : String) : Option ℚ :=
  let parts := str.data.span Char.isDigit
  match parts.2 with
  | [] => if parts.1.isEmpty then none else some (decDigitsVal parts.1 : ℚ)
  | '.' :: fs =>
    if fs.all Char.isDigit ∧ (¬ parts.1.isEmpty ∨ ¬ fs.isEmpty) then
      some ((decDigitsVal parts.1 : ℚ) + (decDigitsVal fs : ℚ) / (10 : ℚ) ^ fs.length)
    else none
  | _ => none

/-- The real-literal evaluation of `parse_prefix_expression` (parser.rs
lines 429-440): a `$`-prefixed literal is read as hex (diagnosing an
invalid one and yielding `0`), anything else through `f64::from_str`
(diagnosing an invalid one and yielding `0.0`). -/
def realLit (symbol : Sym) (span : Span) (s : Pstate) : ℚ × Pstate :=
  if symbol.data.head? = some '$' then
    match hexToNat? symbol.data.tail with
    | some n => ((n : ℚ), s)
    | none => (0, err span "invalid integer literal" s)
  else
    match decToRat? symbol with
    | some q => (q, s)
    | none => (0, err span "invalid floating point literal" s)

/-- Embedding of the parser's `enum Infix` (parser.rs lines 529-534),
named `InfixOp` here. -/
inductive InfixOp where
  | Binary (op : Ast.Binary)
  | Field
  | Index
  | Call
deriving DecidableEq

/-- The precedence table of `Infix::from_token` (parser.rs lines
579-589). -/
def InfixOp.precedence : InfixOp → Nat
  | .Field | .Index | .Call => 7
  | .Binary op =>
    match op with
    | .Op .Multiply | .Op .Divide | .Div | .Mod => 6
    | .Op .Add | .Op .Subtract => 5
    | .ShiftLeft | .ShiftRight => 4
    | .Op .BitAnd | .Op .BitXor | .Op .BitOr => 3
    | .Lt | .Le | .Eq | .Ne | .Ge | .Gt => 2
    | .And | .Or | .Xor => 1

/-- The `from_binop` table inside `Infix::from_token` (parser.rs lines
567-577). -/
def fromBinop : BinOp → Ast.Op
  | .Plus => .Add
  | .Minus => .Subtract
  | .Star => .Multiply
  | .Slash => .Divide
  | .Ampersand => .BitAnd
  | .Pipe => .BitOr
  | .Caret => .BitXor

/-- Embedding of `Infix::from_token` (parser.rs lines 537-592): map a
token to an infix operator and its precedence, `none` when the token
cannot continue an expression.  Note that `=` and `==` both map to
`Binary(Eq)`. -/
def InfixOp.from_token (token : Token) : Option (InfixOp × Nat) :=
  let op? : Option InfixOp :=
    match token with
    | Token.Dot => some InfixOp.Field
    | Token.OpenDelim Delim.Bracket => some InfixOp.Index
    | Token.OpenDelim Delim.Paren => some InfixOp.Call
    | Token.Lt => some (InfixOp.Binary Ast.Binary.Lt)
    | Token.Le => some (InfixOp.Binary Ast.Binary.Le)
    | Token.Eq => some (InfixOp.Binary Ast.Binary.Eq)
    | Token.EqEq => some (InfixOp.Binary Ast.Binary.Eq)
    | Token.Ne => some (InfixOp.Binary Ast.Binary.Ne)
    | Token.Ge => some (InfixOp.Binary Ast.Binary.Ge)
    | Token.Gt => some (InfixOp.Binary Ast.Binary.Gt)
    | Token.BinOp op => some (InfixOp.Binary (Ast.Binary.Op (fromBinop op)))
    | Token.Keyword Keyword.Div => some (InfixOp.Binary Ast.Binary.Div)
    | Token.Keyword Keyword.Mod => some (InfixOp.Binary Ast.Binary.Mod)
    | Token.And => some (InfixOp.Binary Ast.Binary.And)
    | Token.Keyword Keyword.And => some (InfixOp.Binary Ast.Binary.And)
    | Token.Or => some (InfixOp.Binary Ast.Binary.Or)
    | Token.Keyword Keyword.Or => some (InfixOp.Binary Ast.Binary.Or)
    | Token.Xor => some (InfixOp.Binary Ast.Binary.Xor)
    | Token.Keyword Keyword.Xor => some (InfixOp.Binary Ast.Binary.Xor)
    | Token.Shl => some (InfixOp.Binary Ast.Binary.ShiftLeft)
    | Token.Shr => some (InfixOp.Binary Ast.Binary.ShiftRight)
    | _ => none
  match op? with
  | none => none
  | some op => some (op, op.precedence)

/-- The assignment-operator table of `parse_assign_or_invoke`
(parser.rs lines 98-112): `=`/`:=` yield plain assignment, a compound
`op=` yields its operator, anything else is not an assignment. -/
def assignOp? : Token → Option (Option Ast.Op)
  | Token.Eq | Token.ColonEq => some none
  | Token.BinOpEq BinOp.Plus => some (some Ast.Op.Add)
  | Token.BinOpEq BinOp.Minus => some (some Ast.Op.Subtract)
  | Token.BinOpEq BinOp.Star => some (some Ast.Op.Multiply)
  | Token.BinOpEq BinOp.Slash => some (some Ast.Op.Divide)
  | Token.BinOpEq BinOp.Ampersand => some (some Ast.Op.BitAnd)
  | Token.BinOpEq BinOp.Pipe => some (some Ast.Op.BitOr)
  | Token.BinOpEq BinOp.Caret => some (some Ast.Op.BitXor)
  | _ => none

mutual

/-- Embedding of `Parser::parse_program` (parser.rs lines 30-53).  All
parser functions take a fuel parameter that strictly decreases at every
call; `none` means the fuel ran out (the termination theorem shows a
fuel linear in the token count always suffices). -/
def parseProgram : Nat → Pstate → Option ((Ast.Stmt × Span) × Pstate)
  | 0, _ => none
  | fuel+1, s =>
    let low := s.span.low
    let step :=
      if s.current = Token.OpenDelim Delim.Brace then
        parseStatement fuel s
      else
        match parseProgramLoop fuel [] low s with
        | none => none
        | some ((stmts, high), s) =>
          some ((Ast.Stmt.Block stmts, Span.mk low high), s)
    match step with
    | none => none
    | some ((stmt, sp), s) =>
      let s := if s.current ≠ Token.Eof then err s.span "expected end of file" s else s
      some ((stmt, Span.mk low sp.high), s)

/-- The `while self.current != Token::Eof` loop of `parse_program`. -/
def parseProgramLoop : Nat → List (Ast.Stmt × Span) → Nat → Pstate →
    Option ((List (Ast.Stmt × Span) × Nat) × Pstate)
  | 0, _, _, _ => none
  | fuel+1, stmts, high, s =>
    if s.current ≠ Token.Eof then
      match parseStatement fuel s with
      | none => none
      | some ((stmt, sp), s) => parseProgramLoop fuel (stmts ++ [(stmt, sp)]) sp.high s
    else some ((stmts, high), s)

/-- Embedding of `Parser::parse_statement` (parser.rs lines 55-84). -/
def parseStatement : Nat → Pstate → Option ((Ast.Stmt × Span) × Pstate)
  | 0, _ => none
  | fuel+1, s =>
    let low := s.span.low
    let step :=
      match s.current with
      | Token.Keyword Keyword.Var | Token.Keyword Keyword.GlobalVar => parseDeclare fuel s
      | Token.OpenDelim Delim.Brace | Token.Keyword Keyword.Begin => parseBlock fuel s
      | Token.Keyword Keyword.If => parseIf fuel s
      | Token.Keyword Keyword.Repeat => parseRepeat fuel s
      | Token.Keyword Keyword.While | Token.Keyword Keyword.With => parseWhileOrWith fuel s
      | Token.Keyword Keyword.Do => parseDo fuel s
      | Token.Keyword Keyword.For => parseFor fuel s
      | Token.Keyword Keyword.Switch => parseSwitch fuel s
      | Token.Keyword Keyword.Break | Token.Keyword Keyword.Continue
      | Token.Keyword Keyword.Exit => parseJump fuel s
      | Token.Keyword Keyword.Return => parseReturn fuel s
      | Token.Keyword Keyword.Case | Token.Keyword Keyword.Default => parseCase fuel s
      | _ => parseAssignOrInvoke fuel s
    match step with
    | none => none
    | some ((stmt, sp), s) =>
      match skipSemicolons fuel sp.high s with
      | none => none
      | some (high, s) => some ((stmt, Span.mk low high), s)

/-- The trailing `while self.current == Semicolon` loop of
`parse_statement`. -/
def skipSemicolons : Nat → Nat → Pstate → Option (Nat × Pstate)
  | 0, _, _ => none
  | fuel+1, high, s =>
    if s.current = Token.Semicolon then
      skipSemicolons fuel s.span.high (advanceToken s).2
    else some (high, s)

/-- Embedding of `Parser::parse_assign_or_invoke` (parser.rs lines
86-120). -/
def parseAssignOrInvoke : Nat → Pstate → Option ((Ast.Stmt × Span) × Pstate)
  | 0, _ => none
  | fuel+1, s =>
    let low := s.span.low
    match parseTerm fuel s with
    | none => none
    | some ((lvalue, left_span), s) =>
      match lvalue with
      | Ast.Expr.Call f fsp args => some ((Ast.Stmt.Invoke f fsp args, left_span), s)
      | _ =>
        match assignOp? s.current with
        | none =>
          let s := err s.span "unexpected _; expected assignment operator" s
          match parseTerm fuel s with
          | none => none
          | some ((expr, expr_span), s) => some ((Ast.Stmt.Error expr, expr_span), s)
        | some op =>
          let s := (advanceToken s).2
          match parseExpression fuel 0 s with
          | none => none
          | some ((rvalue, right_span), s) =>
            some ((Ast.Stmt.Assign op lvalue left_span rvalue right_span,
                   Span.mk low right_span.high), s)

/-- Embedding of `Parser::parse_declare` (parser.rs lines 122-151).
The `unreachable!()` on a non-`var`, non-`globalvar` first token is
modelled as `Local`; the statement dispatcher only calls this function
on those two keywords. -/
def parseDeclare : Nat → Pstate → Option ((Ast.Stmt × Span) × Pstate)
  | 0, _ => none
  | fuel+1, s =>
    let low := s.span.low
    let a := advanceToken s
    let declare :=
      match a.1.1 with
      | Token.Keyword Keyword.GlobalVar => Ast.Declare.Global
      | _ => Ast.Declare.Local
    match parseDeclareLoop fuel [] a.2 with
    | none => none
    | some (idents, s) =>
      let high := s.span.high
      let s := (expect Token.Semicolon s).2
      some ((Ast.Stmt.Declare declare idents, Span.mk low high), s)

/-- The identifier-list loop of `parse_declare`. -/
def parseDeclareLoop : Nat → List (Sym × Span) → Pstate →
    Option (List (Sym × Span) × Pstate)
  | 0, _, _ => none
  | fuel+1, idents, s =>
    if s.current ≠ Token.Semicolon ∧ s.current ≠ Token.Eof then
      match s.current with
      | Token.Ident symbol =>
        let idents := idents ++ [(symbol, s.span)]
        let s := (advanceToken s).2
        let s := if s.current = Token.Comma then (advanceToken s).2 else s
        parseDeclareLoop fuel idents s
      | _ => some (idents, s)
    else some (idents, s)

/-- Embedding of `Parser::parse_block` (parser.rs lines 153-178). -/
def parseBlock : Nat → Pstate → Option ((Ast.Stmt × Span) × Pstate)
  | 0, _ => none
  | fuel+1, s =>
    let low := s.span.low
    let s := (advanceToken s).2
    match parseBlockLoop fuel [] s with
    | none => none
    | some (stmts, s) =>
      if s.current = Token.Eof then
        let s := err s.span "unexpected end of file; expected \x7d" s
        some ((Ast.Stmt.Block stmts, Span.mk low s.span.low), s)
      else
        let a := advanceToken s
        some ((Ast.Stmt.Block stmts, Span.mk low a.1.2.high), a.2)

/-- The statement loop of `parse_block`. -/
def parseBlockLoop : Nat → List (Ast.Stmt × Span) → Pstate →
    Option (List (Ast.Stmt × Span) × Pstate)
  | 0, _, _ => none
  | fuel+1, stmts, s =>
    if s.current ≠ Token.CloseDelim Delim.Brace ∧
       s.current ≠ Token.Keyword Keyword.End ∧ s.current ≠ Token.Eof then
      match parseStatement fuel s with
      | none => none
      | some (stmtSp, s) => parseBlockLoop fuel (stmts ++ [stmtSp]) s
    else some (stmts, s)

/-- Embedding of `Parser::parse_if` (parser.rs lines 180-206). -/
def parseIf : Nat → Pstate → Option ((Ast.Stmt × Span) × Pstate)
  | 0, _ => none
  | fuel+1, s =>
    let low := s.span.low
    let s := (advanceToken s).2
    match parseExpression fuel 0 s with
    | none => none
    | some ((expr, expr_span), s) =>
      let s := if s.current = Token.Keyword Keyword.Then then (advanceToken s).2 else s
      match parseStatement fuel s with
      | none => none
      | some ((tb, tsp), s) =>
        if s.current = Token.Keyword Keyword.Else then
          let s := (advanceToken s).2
          match parseStatement fuel s with
          | none => none
          | some ((fb, fsp), s) =>
            some ((Ast.Stmt.If expr expr_span tb tsp (some (fb, fsp)),
                   Span.mk low fsp.high), s)
        else
          some ((Ast.Stmt.If expr expr_span tb tsp none, Span.mk low tsp.high), s)

/-- Embedding of `Parser::parse_repeat` (parser.rs lines 208-219). -/
def parseRepeat : Nat → Pstate → Option ((Ast.Stmt × Span) × Pstate)
  | 0, _ => none
  | fuel+1, s =>
    let low := s.span.low
    let s := (advanceToken s).2
    match parseExpression fuel 0 s with
    | none => none
    | some ((count, count_span), s) =>
      match parseStatement fuel s with
      | none => none
      | some ((body, body_span), s) =>
        some ((Ast.Stmt.Repeat count count_span body body_span,
               Span.mk low body_span.high), s)

/-- Embedding of `Parser::parse_while_or_with` (parser.rs lines
221-240).  The `unreachable!()` on other first tokens is modelled as
`With`; the dispatcher only calls this on `while`/`with`. -/
def parseWhileOrWith : Nat → Pstate → Option ((Ast.Stmt × Span) × Pstate)
  | 0, _ => none
  | fuel+1, s =>
    let low := s.span.low
    let a := advanceToken s
    match parseExpression fuel 0 a.2 with
    | none => none
    | some ((expr, expr_span), s) =>
      let s := if s.current = Token.Keyword Keyword.Do then (advanceToken s).2 else s
      match parseStatement fuel s with
      | none => none
      | some ((body, body_span), s) =>
        let stmt :=
          match a.1.1 with
          | Token.Keyword Keyword.While => Ast.Stmt.While expr expr_span body body_span
          | _ => Ast.Stmt.With expr expr_span body body_span
        some ((stmt, Span.mk low body_span.high), s)

/-- Embedding of `Parser::parse_do` (parser.rs lines 242-254). -/
def parseDo : Nat → Pstate → Option ((Ast.Stmt × Span) × Pstate)
  | 0, _ => none
  | fuel+1, s =>
    let low := s.span.low
    let s := (advanceToken s).2
    match parseStatement fuel s with
    | none => none
    | some ((body, body_span), s) =>
      let s := (expect (Token.Keyword Keyword.Until) s).2
      match parseExpression fuel 0 s with
      | none => none
      | some ((expr, expr_span), s) =>
        some ((Ast.Stmt.Do body body_span expr expr_span,
               Span.mk low expr_span.high), s)

/-- Embedding of `Parser::parse_for` (parser.rs lines 256-281). -/
def parseFor : Nat → Pstate → Option ((Ast.Stmt × Span) × Pstate)
  | 0, _ => none
  | fuel+1, s =>
    let low := s.span.low
    let s := (advanceToken s).2
    let s := (expect (Token.OpenDelim Delim.Paren) s).2
    match parseStatement fuel s with
    | none => none
    | some ((init, init_span), s) =>
      match parseExpression fuel 0 s with
      | none => none
      | some ((cond, cond_span), s) =>
        let s := if s.current = Token.Semicolon then (advanceToken s).2 else s
        match parseStatement fuel s with
        | none => none
        | some ((next, next_span), s) =>
          let high := s.span.high
          let s := (expect (Token.CloseDelim Delim.Paren) s).2
          match parseStatement fuel s with
          | none => none
          | some ((body, body_span), s) =>
            some ((Ast.Stmt.For init init_span cond cond_span
                     next next_span body body_span, Span.mk low high), s)

/-- Embedding of `Parser::parse_switch` (parser.rs lines 283-304).  The
`unreachable!()` on a non-`Block` result of `parse_block` is modelled
as the empty body; `parse_block` always returns a `Block`. -/
def parseSwitch : Nat → Pstate → Option ((Ast.Stmt × Span) × Pstate)
  | 0, _ => none
  | fuel+1, s =>
    let low := s.span.low
    let s := (advanceToken s).2
    match parseExpression fuel 0 s with
    | none => none
    | some ((expr, expr_span), s) =>
      let s :=
        if s.current ≠ Token.OpenDelim Delim.Brace ∧
           s.current ≠ Token.Keyword Keyword.Begin then
          err s.span "unexpected _; expected \x7b" s
        else s
      match parseBlock fuel s with
      | none => none
      | some ((blockStmt, bsp), s) =>
        let body :=
          match blockStmt with
          | Ast.Stmt.Block stmts => stmts
          | _ => []
        some ((Ast.Stmt.Switch expr expr_span body, Span.mk low bsp.high), s)

/-- Embedding of `Parser::parse_jump` (parser.rs lines 306-318).  The
`unreachable!()` is modelled as `Exit`; the dispatcher only calls this
on `break`/`continue`/`exit`. -/
def parseJump : Nat → Pstate → Option ((Ast.Stmt × Span) × Pstate)
  | 0, _ => none
  | fuel+1, s =>
    let low := s.span.low
    let a := advanceToken s
    let jump :=
      match a.1.1 with
      | Token.Keyword Keyword.Break => Ast.Jump.Break
      | Token.Keyword Keyword.Continue => Ast.Jump.Continue
      | _ => Ast.Jump.Exit
    let _ := fuel
    some ((Ast.Stmt.Jump jump, Span.mk low a.1.2.high), a.2)

/-- Embedding of `Parser::parse_return` (parser.rs lines 320-329). -/
def parseReturn : Nat → Pstate → Option ((Ast.Stmt × Span) × Pstate)
  | 0, _ => none
  | fuel+1, s =>
    let low := s.span.low
    let s := (advanceToken s).2
    match parseExpression fuel 0 s with
    | none => none
    | some ((expr, expr_span), s) =>
      some ((Ast.Stmt.Return expr expr_span, Span.mk low expr_span.high), s)

/-- Embedding of `Parser::parse_case` (parser.rs lines 331-346).  The
`unreachable!()` on other first tokens falls into the `Default` arm;
the dispatcher only calls this on `case`/`default`. -/
def parseCase : Nat → Pstate → Option ((Ast.Stmt × Span) × Pstate)
  | 0, _ => none
  | fuel+1, s =>
    let low := s.span.low
    let a := advanceToken s
    match a.1.1 with
    | Token.Keyword Keyword.Case =>
      match parseExpression fuel 0 a.2 with
      | none => none
      | some (eSp, s) =>
        let high := s.span.high
        let s := (expect Token.Colon s).2
        some ((Ast.Stmt.Case (some eSp), Span.mk low high), s)
    | _ =>
      let s := a.2
      let high := s.span.high
      let s := (expect Token.Colon s).2
      some ((Ast.Stmt.Case none, Span.mk low high), s)

/-- Embedding of `Parser::parse_expression` (parser.rs lines
348-410). -/
def parseExpression : Nat → Nat → Pstate → Option ((Ast.Expr × Span) × Pstate)
  | 0, _, _ => none
  | fuel+1, minPrec, s =>
    match parsePrefixExpression fuel s with
    | none => none
    | some ((left, leftSpan, parens), s) =>
      parseExpressionLoop fuel minPrec left leftSpan parens s

/-- The `while let Some((op, precedence)) = Infix::from_token(...)`
loop of `parse_expression` (parser.rs lines 350-407). -/
def parseExpressionLoop : Nat → Nat → Ast.Expr → Span → Bool → Pstate →
    Option ((Ast.Expr × Span) × Pstate)
  | 0, _, _, _, _, _ => none
  | fuel+1, minPrec, left, leftSpan, parens, s =>
    match InfixOp.from_token s.current with
    | none => some ((left, leftSpan), s)
    | some (op, precedence) =>
      if precedence < minPrec then some ((left, leftSpan), s)
      else
        let low := leftSpan.low
        match op with
        | InfixOp.Call =>
          match left with
          | Ast.Expr.Value (Ast.Value.Ident _) =>
            match parseArgs fuel Delim.Paren s with
            | none => none
            | some ((args, high), s) =>
              parseExpressionLoop fuel minPrec
                (Ast.Expr.Call left leftSpan args) (Span.mk low high) true s
          | _ => some ((left, leftSpan), s)
        | InfixOp.Index =>
          if parens then some ((left, leftSpan), s)
          else
            match left with
            | Ast.Expr.Value (Ast.Value.Ident _) | Ast.Expr.Field _ _ _ _ =>
              match parseArgs fuel Delim.Bracket s with
              | none => none
              | some ((args, high), s) =>
                parseExpressionLoop fuel minPrec
                  (Ast.Expr.Index left leftSpan args) (Span.mk low high) false s
            | _ => some ((left, leftSpan), s)
        | InfixOp.Field =>
          match left with
          | Ast.Expr.Value (Ast.Value.Ident _) | Ast.Expr.Field _ _ _ _
          | Ast.Expr.Index _ _ _ =>
            let s := (advanceToken s).2
            match s.current with
            | Token.Ident field =>
              let a := advanceToken s
              parseExpressionLoop fuel minPrec
                (Ast.Expr.Field left leftSpan field a.1.2)
                (Span.mk low a.1.2.high) false a.2
            | _ =>
              let s := err s.span "unexpected _; expected identifier" s
              some ((left, leftSpan), s)
          | _ => some ((left, leftSpan), s)
        | InfixOp.Binary bop =>
          let s := (advanceToken s).2
          match parseExpression fuel (precedence + 1) s with
          | none => none
          | some ((right, right_span), s) =>
            parseExpressionLoop fuel minPrec
              (Ast.Expr.Binary bop left leftSpan right right_span)
              (Span.mk leftSpan.low right_span.high) parens s

/-- Embedding of `Parser::parse_prefix_expression` (parser.rs lines
412-480).  Returns the expression, its span, and the `parens` flag. -/
def parsePrefixExpression : Nat → Pstate → Option ((Ast.Expr × Span × Bool) × Pstate)
  | 0, _ => none
  | fuel+1, s =>
    let low := s.span.low
    let a := advanceToken s
    let current := a.1.1
    let span := a.1.2
    let s := a.2
    match current with
    | Token.Ident symbol =>
      some ((Ast.Expr.Value (Ast.Value.Ident symbol), span, false), s)
    | Token.Keyword Keyword.True =>
      some ((Ast.Expr.Value (Ast.Value.Ident (keywordSym Keyword.True)), span, false), s)
    | Token.Keyword Keyword.False =>
      some ((Ast.Expr.Value (Ast.Value.Ident (keywordSym Keyword.False)), span, false), s)
    | Token.Keyword Keyword.Self_ =>
      some ((Ast.Expr.Value (Ast.Value.Ident (keywordSym Keyword.Self_)), span, false), s)
    | Token.Keyword Keyword.Other =>
      some ((Ast.Expr.Value (Ast.Value.Ident (keywordSym Keyword.Other)), span, false), s)
    | Token.Keyword Keyword.All =>
      some ((Ast.Expr.Value (Ast.Value.Ident (keywordSym Keyword.All)), span, false), s)
    | Token.Keyword Keyword.NoOne =>
      some ((Ast.Expr.Value (Ast.Value.Ident (keywordSym Keyword.NoOne)), span, false), s)
    | Token.Keyword Keyword.Global =>
      some ((Ast.Expr.Value (Ast.Value.Ident (keywordSym Keyword.Global)), span, false), s)
    | Token.Keyword Keyword.Local =>
      some ((Ast.Expr.Value (Ast.Value.Ident (keywordSym Keyword.Local)), span, false), s)
    | Token.Real symbol =>
      let res := realLit symbol span s
      some ((Ast.Expr.Value (Ast.Value.Real res.1), span, false), res.2)
    | Token.String symbol =>
      let sym := (symbol.drop 1).dropRight 1
      some ((Ast.Expr.Value (Ast.Value.String sym), span, false), s)
    | Token.BinOp BinOp.Plus | Token.BinOp BinOp.Minus | Token.Bang
    | Token.Keyword Keyword.Not | Token.Tilde =>
      let op :=
        match current with
        | Token.BinOp BinOp.Plus => Ast.Unary.Positive
        | Token.BinOp BinOp.Minus => Ast.Unary.Negate
        | Token.Bang => Ast.Unary.Invert
        | Token.Keyword Keyword.Not => Ast.Unary.Invert
        | _ => Ast.Unary.BitInvert
      match parseTerm fuel s with
      | none => none
      | some ((expr, expr_span), s) =>
        some ((Ast.Expr.Unary op expr expr_span, Span.mk low expr_span.high, true), s)
    | Token.OpenDelim Delim.Paren =>
      match parseExpression fuel 0 s with
      | none => none
      | some ((expr, expr_span), s) =>
        let s := (expect (Token.CloseDelim Delim.Paren) s).2
        some ((expr, expr_span, true), s)
    | _ =>
      let s := err s.span "unexpected _; expected expression" s
      some ((Ast.Expr.Value (Ast.Value.Real 0), Span.mk low low, false), s)

/-- Embedding of `Parser::parse_args` (parser.rs lines 482-504). -/
def parseArgs : Nat → Delim → Pstate → Option ((List (Ast.Expr × Span) × Nat) × Pstate)
  | 0, _, _ => none
  | fuel+1, delim, s =>
    let s := (advanceToken s).2
    match parseArgsLoop fuel delim [] s with
    | none => none
    | some (args, s) =>
      let high := s.span.high
      if s.current ≠ Token.CloseDelim delim then
        some ((args, high), err s.span "unexpected _; expected _ or ," s)
      else
        some ((args, high), (advanceToken s).2)

/-- The argument loop of `parse_args`. -/
def parseArgsLoop : Nat → Delim → List (Ast.Expr × Span) → Pstate →
    Option (List (Ast.Expr × Span) × Pstate)
  | 0, _, _, _ => none
  | fuel+1, delim, args, s =>
    if s.current ≠ Token.CloseDelim delim ∧ s.current ≠ Token.Eof then
      match parseExpression fuel 0 s with
      | none => none
      | some (eSp, s) =>
        let args := args ++ [eSp]
        if s.current = Token.Comma then parseArgsLoop fuel delim args (advanceToken s).2
        else some (args, s)
    else some (args, s)

/-- Embedding of `Parser::parse_term` (parser.rs lines 506-508). -/
def parseTerm : Nat → Pstate → Option ((Ast.Expr × Span) × Pstate)
  | 0, _ => none
  | fuel+1, s => parseExpression fuel 7 s

end

/-- Embedding of `Parser::new` (parser.rs lines 17-28): start with a
dummy `Eof` current token and the span `[0, 0)`, then advance once. -/
def initParser (toks : List (Token × Span)) (eofSpan : Span) : Pstate :=
  (advanceToken ⟨toks, eofSpan, Token.Eof, ⟨0, 0⟩, []⟩).2

/-- The token stream the lexer produces for the source
`x + y * (3 + z)` (spans are byte offsets, modelled from the spec's
lexer section; the spans are the ones the claim lists). -/
def precedenceToks : List (Token × Span) :=
  [(Token.Ident "x", ⟨0, 1⟩), (Token.BinOp BinOp.Plus, ⟨2, 3⟩),
   (Token.Ident "y", ⟨4, 5⟩), (Token.BinOp BinOp.Star, ⟨6, 7⟩),
   (Token.OpenDelim Delim.Paren, ⟨8, 9⟩), (Token.Real "3", ⟨9, 10⟩),
   (Token.BinOp BinOp.Plus, ⟨11, 12⟩), (Token.Ident "z", ⟨13, 14⟩),
   (Token.CloseDelim Delim.Paren, ⟨14, 15⟩)]

/-- C4: parsing `x + y * (3 + z)` as an expression (as the unit test
`tests::precedence` does: `Parser::new` then `parse_expression(0)`)
yields `Add(x, Multiply(y, Add(3.0, z)))` with exactly the claimed
spans, consumes the whole stream, and reports no diagnostic. -/
theorem precedence_parse :
    parseExpression 100 0 (initParser precedenceToks ⟨15, 15⟩) =
      some ((Ast.Expr.Binary (Ast.Binary.Op Ast.Op.Add)
        (Ast.Expr.Value (Ast.Value.Ident "x")) ⟨0, 1⟩
        (Ast.Expr.Binary (Ast.Binary.Op Ast.Op.Multiply)
          (Ast.Expr.Value (Ast.Value.Ident "y")) ⟨4, 5⟩
          (Ast.Expr.Binary (Ast.Binary.Op Ast.Op.Add)
            (Ast.Expr.Value (Ast.Value.Real 3)) ⟨9, 10⟩
            (Ast.Expr.Value (Ast.Value.Ident "z")) ⟨13, 14⟩) ⟨9, 14⟩) ⟨4, 14⟩,
        (⟨0, 14⟩ : Span)),
       ⟨[], ⟨15, 15⟩, Token.Eof, ⟨15, 15⟩, []⟩) := rfl

/-- The expression shapes on which `parse_expression` accepts a `[`
index: a bare identifier or a field access (parser.rs lines 365-367). -/
def isIdentOrField : Ast.Expr → Bool
  | .Value (.Ident _) => true
  | .Field _ _ _ _ => true
  | _ => false

/-- C7: in the `parse_expression` loop, a parenthesized expression
(`parens` flag set) followed by `[` is never given a language
array-index node — the loop stops and leaves the `[` unconsumed for an
outer construct — whereas with the flag clear a bare identifier or
field expression followed by `[` continues as an `Index` expression
over the bracketed arguments. -/
theorem paren_flag_blocks_index :
    (∀ (fuel minPrec : Nat) (left : Ast.Expr) (lsp : Span) (s : Pstate),
      s.current = Token.OpenDelim Delim.Bracket →
      parseExpressionLoop (fuel+1) minPrec left lsp true s = some ((left, lsp), s)) ∧
    (∀ (fuel minPrec : Nat) (left : Ast.Expr) (lsp : Span) (s : Pstate),
      s.current = Token.OpenDelim Delim.Bracket → minPrec ≤ 7 →
      isIdentOrField left = true →
      parseExpressionLoop (fuel+1) minPrec left lsp false s =
        match parseArgs fuel Delim.Bracket s with
        | none => none
        | some ((args, high), s2) =>
          parseExpressionLoop fuel minPrec (Ast.Expr.Index left lsp args)
            (Span.mk lsp.low high) false s2) := by
  constructor
  · intro fuel minPrec left lsp s h
    simp only [parseExpressionLoop, h, InfixOp.from_token, InfixOp.precedence]
    split
    · rfl
    · cases left with
      | Value v => cases v <;> rfl
      | Unary op e esp => rfl
      | Binary op l ls r rs => rfl
      | Field e es f fs => rfl
      | Index e es args => rfl
      | Call f fs args => rfl
  · intro fuel minPrec left lsp s h hmp hl
    have hlt : ¬ (7 < minPrec) := by omega
    cases left with
    | Value v =>
      cases v with
      | Ident x =>
        simp only [parseExpressionLoop, h, InfixOp.from_token, InfixOp.precedence,
          if_neg hlt, Bool.false_eq_true, if_false]
      | Real r => simp [isIdentOrField] at hl
      | String str => simp [isIdentOrField] at hl
    | Field e es f fs =>
      simp only [parseExpressionLoop, h, InfixOp.from_token, InfixOp.precedence,
        if_neg hlt, Bool.false_eq_true, if_false]
    | Unary op e esp => simp [isIdentOrField] at hl
    | Binary op l ls r rs => simp [isIdentOrField] at hl
    | Index e es args => simp [isIdentOrField] at hl
    | Call f fs args => simp [isIdentOrField] at hl

/-- A parser state whose current token is `[`, about to read `0]`. -/
def bracketState : Pstate :=
  ⟨[(Token.Real "0", ⟨2, 3⟩), (Token.CloseDelim Delim.Bracket, ⟨3, 4⟩)],
   ⟨4, 4⟩, Token.OpenDelim Delim.Bracket, ⟨1, 2⟩, []⟩

/-- Closed instance of `paren_flag_blocks_index`: on the token suffix
`[0]`, the identifier `x` with the parens flag set keeps its AST and
consumes nothing, while with the flag clear it becomes `x[0]`. -/
theorem paren_flag_blocks_index_witness :
    parseExpressionLoop 6 0 (Ast.Expr.Value (Ast.Value.Ident "x")) ⟨0, 1⟩ true bracketState =
      some ((Ast.Expr.Value (Ast.Value.Ident "x"), ⟨0, 1⟩), bracketState) ∧
    parseExpressionLoop 6 0 (Ast.Expr.Value (Ast.Value.Ident "x")) ⟨0, 1⟩ false bracketState =
      some ((Ast.Expr.Index (Ast.Expr.Value (Ast.Value.Ident "x")) ⟨0, 1⟩
        [(Ast.Expr.Value (Ast.Value.Real 0), ⟨2, 3⟩)], ⟨0, 4⟩),
        ⟨[], ⟨4, 4⟩, Token.Eof, ⟨4, 4⟩, []⟩) := by
  constructor
  · exact paren_flag_blocks_index.1 5 0 _ _ bracketState rfl
  · exact (paren_flag_blocks_index.2 5 0 (Ast.Expr.Value (Ast.Value.Ident "x")) ⟨0, 1⟩
      bracketState rfl (by omega) rfl).trans rfl


/-- Replace every `==` token by `=`; identity on all other tokens. -/
def normTok : Token → Token
  | Token.EqEq => Token.Eq
  | t => t

/-- Apply `normTok` to the current token and the whole remaining
stream.  Two parser states are `=`/`==` interchangeable exactly when
they have the same normalization. -/
def normState (s : Pstate) : Pstate :=
  ⟨s.reader.map (fun p => (normTok p.1, p.2)), s.eofSpan, normTok s.current, s.span,
   s.errors⟩

theorem advance_norm (s : Pstate) :
    advanceToken (normState s) =
      ((normTok (advanceToken s).1.1, (advanceToken s).1.2),
       normState (advanceToken s).2) := by
  cases s with
  | mk r e c sp er => cases r <;> rfl

theorem err_norm (sp : Span) (m : String) (s : Pstate) :
    err sp m (normState s) = normState (err sp m s) := rfl

theorem current_norm (s : Pstate) : (normState s).current = normTok s.current := rfl

theorem span_norm (s : Pstate) : (normState s).span = s.span := rfl

theorem from_token_norm (t : Token) :
    InfixOp.from_token (normTok t) = InfixOp.from_token t := by
  cases t <;> rfl

theorem norm_eq_comma (t : Token) : (normTok t = Token.Comma) ↔ (t = Token.Comma) := by
  cases t <;> simp [normTok]

theorem norm_eq_close (t : Token) (d : Delim) :
    (normTok t = Token.CloseDelim d) ↔ (t = Token.CloseDelim d) := by
  cases t <;> simp [normTok]

theorem norm_eq_eof (t : Token) : (normTok t = Token.Eof) ↔ (t = Token.Eof) := by
  cases t <;> simp [normTok]

theorem expect_norm (t : Token) (s : Pstate) (h1 : t ≠ Token.Eq) (h2 : t ≠ Token.EqEq) :
    expect t (normState s) = ((expect t s).1, normState (expect t s).2) := by
  have hc : (normTok s.current = t) ↔ (s.current = t) := by
    cases s.current <;> simp [normTok] <;> try tauto
  simp only [expect, current_norm, span_norm, hc]
  split
  · rw [advance_norm]
  · rw [err_norm]

theorem realLit_norm (sym : Sym) (sp : Span) (s : Pstate) :
    realLit sym sp (normState s) =
      ((realLit sym sp s).1, normState (realLit sym sp s).2) := by
  unfold realLit
  by_cases h : sym.data.head? = some '$'
  · rw [if_pos h, if_pos h]
    cases hexToNat? sym.data.tail <;> rfl
  · rw [if_neg h, if_neg h]
    cases decToRat? sym <;> rfl

/-- Normalize the state component of a parser result. -/
def mapNorm {α : Type} (r : Option (α × Pstate)) : Option (α × Pstate) :=
  r.map (fun p => (p.1, normState p.2))

/-- The expression layer of the parser commutes with token
normalization: parsing a normalized state yields the same expression,
span and diagnostics, and the normalized final state. -/
def NormProp (fuel : Nat) : Prop :=
  (∀ minPrec s, parseExpression fuel minPrec (normState s) =
    mapNorm (parseExpression fuel minPrec s)) ∧
  (∀ minPrec left lsp parens s,
    parseExpressionLoop fuel minPrec left lsp parens (normState s) =
      mapNorm (parseExpressionLoop fuel minPrec left lsp parens s)) ∧
  (∀ s, parsePrefixExpression fuel (normState s) =
    mapNorm (parsePrefixExpression fuel s)) ∧
  (∀ delim s, parseArgs fuel delim (normState s) = mapNorm (parseArgs fuel delim s)) ∧
  (∀ delim args s, parseArgsLoop fuel delim args (normState s) =
    mapNorm (parseArgsLoop fuel delim args s)) ∧
  (∀ s, parseTerm fuel (normState s) = mapNorm (parseTerm fuel s))

theorem normProp : ∀ fuel, NormProp fuel := by
  intro fuel
  induction fuel with
  | zero => exact ⟨fun _ _ => rfl, fun _ _ _ _ _ => rfl, fun _ => rfl,
      fun _ _ => rfl, fun _ _ _ => rfl, fun _ => rfl⟩
  | succ f ih =>
    obtain ⟨ihE, ihL, ihP, ihA, ihAL, ihT⟩ := ih
    refine ⟨?_, ?_, ?_, ?_, ?_, ?_⟩
    · -- parseExpression
      intro minPrec s
      simp only [parseExpression, ihP s]
      cases hp : parsePrefixExpression f s with
      | none => rfl
      | some r =>
        obtain ⟨⟨l, ls, p⟩, s2⟩ := r
        simp only [mapNorm, Option.map_some']
        exact ihL minPrec l ls p s2
    · -- parseExpressionLoop
      intro minPrec left lsp parens s
      simp only [parseExpressionLoop, current_norm, from_token_norm]
      cases hft : InfixOp.from_token s.current with
      | none => rfl
      | some op2 =>
        obtain ⟨op, prec⟩ := op2
        by_cases hlt : prec < minPrec
        · simp [hlt, mapNorm]
        · simp only [if_neg hlt]
          cases op with
          | Call =>
            cases left with
            | Value v =>
              cases v with
              | Ident x =>
                simp only [ihA]
                cases ha : parseArgs f Delim.Paren s with
                | none => rfl
                | some r =>
                  obtain ⟨⟨args, high⟩, s2⟩ := r
                  simp only [mapNorm, Option.map_some']
                  exact ihL _ _ _ _ s2
              | Real q => rfl
              | String str => rfl
            | Unary _ _ _ => rfl
            | Binary _ _ _ _ _ => rfl
            | Field _ _ _ _ => rfl
            | Index _ _ _ => rfl
            | Call _ _ _ => rfl
          | Index =>
            by_cases hp : parens
            · simp [hp, mapNorm]
            · simp only [hp, Bool.false_eq_true, if_false]
              cases left with
              | Value v =>
                cases v with
                | Ident x =>
                  simp only [ihA]
                  cases ha : parseArgs f Delim.Bracket s with
                  | none => rfl
                  | some r =>
                    obtain ⟨⟨args, high⟩, s2⟩ := r
                    simp only [mapNorm, Option.map_some']
                    exact ihL _ _ _ _ s2
                | Real q => rfl
                | String str => rfl
              | Unary _ _ _ => rfl
              | Binary _ _ _ _ _ => rfl
              | Field e es fl fs =>
                simp only [ihA]
                cases ha : parseArgs f Delim.Bracket s with
                | none => rfl
                | some r =>
                  obtain ⟨⟨args, high⟩, s2⟩ := r
                  simp only [mapNorm, Option.map_some']
                  exact ihL _ _ _ _ s2
              | Index _ _ _ => rfl
              | Call _ _ _ => rfl
          | Field =>
            have harm : ∀ (L : Ast.Expr) (LS : Span),
                (let s1 := (advanceToken (normState s)).2
                 match s1.current with
                 | Token.Ident field =>
                   let a := advanceToken s1
                   parseExpressionLoop f minPrec (Ast.Expr.Field L LS field a.1.2)
                     (Span.mk LS.low a.1.2.high) false a.2
                 | _ =>
                   let s1 := err s1.span "unexpected _; expected identifier" s1
                   some ((L, LS), s1)) =
                mapNorm
                (let s1 := (advanceToken s).2
                 match s1.current with
                 | Token.Ident field =>
                   let a := advanceToken s1
                   parseExpressionLoop f minPrec (Ast.Expr.Field L LS field a.1.2)
                     (Span.mk LS.low a.1.2.high) false a.2
                 | _ =>
                   let s1 := err s1.span "unexpected _; expected identifier" s1
                   some ((L, LS), s1)) := by
              intro L LS
              rw [advance_norm]
              cases hc : (advanceToken s).2.current <;>
                simp [current_norm, span_norm, err_norm, advance_norm, mapNorm, normTok,
                  hc, ihL]
            cases left with
            | Value v =>
              cases v with
              | Ident x => exact harm _ _
              | Real q => rfl
              | String str => rfl
            | Unary _ _ _ => rfl
            | Binary _ _ _ _ _ => rfl
            | Field e es fl fs => exact harm _ _
            | Index e es args => exact harm _ _
            | Call _ _ _ => rfl
          | Binary bop =>
            rw [advance_norm]
            simp only [ihE]
            cases he : parseExpression f (prec + 1) (advanceToken s).2 with
            | none => rfl
            | some r =>
              obtain ⟨⟨right, rs⟩, s2⟩ := r
              simp only [mapNorm, Option.map_some']
              exact ihL _ _ _ _ s2
    · -- parsePrefixExpression
      intro s
      simp only [parsePrefixExpression, advance_norm, span_norm]
      cases hc : (advanceToken s).1.1 <;>
        simp [normTok, mapNorm, err_norm, span_norm, current_norm, realLit_norm]
      case Keyword k =>
        cases k <;>
          simp [normTok, mapNorm, err_norm, span_norm, current_norm, ihT]
        all_goals {
          cases ht : parseTerm f (advanceToken s).2 with
          | none => rfl
          | some r => obtain ⟨⟨e2, es⟩, s2⟩ := r; simp [mapNorm]
        }
      case BinOp op =>
        cases op <;>
          simp [normTok, mapNorm, err_norm, span_norm, current_norm, ihT]
        all_goals {
          cases ht : parseTerm f (advanceToken s).2 with
          | none => rfl
          | some r => obtain ⟨⟨e2, es⟩, s2⟩ := r; simp [mapNorm]
        }
      case Bang =>
        simp only [ihT]
        cases ht : parseTerm f (advanceToken s).2 with
        | none => rfl
        | some r => obtain ⟨⟨e2, es⟩, s2⟩ := r; simp [mapNorm]
      case Tilde =>
        simp only [ihT]
        cases ht : parseTerm f (advanceToken s).2 with
        | none => rfl
        | some r => obtain ⟨⟨e2, es⟩, s2⟩ := r; simp [mapNorm]
      case OpenDelim d =>
        cases d <;>
          simp [normTok, mapNorm, err_norm, span_norm, current_norm, ihE]
        cases he : parseExpression f 0 (advanceToken s).2 with
        | none => rfl
        | some r =>
          obtain ⟨⟨e2, es⟩, s2⟩ := r
          simp [mapNorm, expect_norm]
    · -- parseArgs
      intro delim s
      simp only [parseArgs, advance_norm, ihAL]
      cases ha : parseArgsLoop f delim [] (advanceToken s).2 with
      | none => rfl
      | some r =>
        obtain ⟨args, s2⟩ := r
        simp only [mapNorm, Option.map_some', current_norm, span_norm]
        by_cases hcl : s2.current = Token.CloseDelim delim
        · have h1 : ¬ (normTok s2.current ≠ Token.CloseDelim delim) := by
            rw [hcl]; cases delim <;> simp [normTok]
          have h2 : ¬ (s2.current ≠ Token.CloseDelim delim) := not_not.mpr hcl
          rw [if_neg h1, if_neg h2, advance_norm]
          rfl
        · have h1 : normTok s2.current ≠ Token.CloseDelim delim := by
            rw [Ne, norm_eq_close]; exact hcl
          rw [if_pos h1, if_pos hcl, err_norm]
          rfl
    · -- parseArgsLoop
      intro delim args s
      simp only [parseArgsLoop, current_norm]
      by_cases hg : s.current ≠ Token.CloseDelim delim ∧ s.current ≠ Token.Eof
      · rw [if_pos (by
          constructor
          · rw [Ne, norm_eq_close]; exact hg.1
          · rw [Ne, norm_eq_eof]; exact hg.2)]
        rw [if_pos hg]
        simp only [ihE]
        cases he : parseExpression f 0 s with
        | none => rfl
        | some r =>
          obtain ⟨esp, s2⟩ := r
          simp only [mapNorm, Option.map_some', current_norm]
          by_cases hcm : s2.current = Token.Comma
          · rw [if_pos (by rw [norm_eq_comma]; exact hcm), if_pos hcm, advance_norm]
            exact ihAL _ _ _
          · rw [if_neg (by rw [norm_eq_comma]; exact hcm), if_neg hcm]
            rfl
      · have hng : ¬ (normTok s.current ≠ Token.CloseDelim delim ∧
            normTok s.current ≠ Token.Eof) := by
          intro hcon
          refine hg ⟨fun h => hcon.1 ?_, fun h => hcon.2 ?_⟩
          · rw [h]; cases delim <;> rfl
          · rw [h]; rfl
        rw [if_neg hng, if_neg hg]
        rfl
    · -- parseTerm
      intro s
      simp only [parseTerm]
      exact ihE 7 s

/-- C6: in expression position `=` and `==` are identical.
`Infix::from_token` maps both to the equality operator, and two parser
states that agree up to interchanging `=` and `==` (that is, with equal
normalizations) parse to the same expression and span. -/
theorem eq_eqeq_identical :
    InfixOp.from_token Token.Eq = InfixOp.from_token Token.EqEq ∧
    ∀ (fuel minPrec : Nat) (s1 s2 : Pstate), normState s1 = normState s2 →
      Option.map Prod.fst (parseExpression fuel minPrec s1) =
        Option.map Prod.fst (parseExpression fuel minPrec s2) := by
  refine ⟨rfl, fun fuel minPrec s1 s2 h => ?_⟩
  have e1 := ((normProp fuel).1) minPrec s1
  have e2 := ((normProp fuel).1) minPrec s2
  rw [h] at e1
  have : mapNorm (parseExpression fuel minPrec s1) =
      mapNorm (parseExpression fuel minPrec s2) := by rw [← e1, ← e2]
  cases h1 : parseExpression fuel minPrec s1 <;>
    cases h2 : parseExpression fuel minPrec s2 <;>
      rw [h1, h2] at this <;> simp [mapNorm] at this <;> simp [this]

/-- Closed instance of `eq_eqeq_identical`: the expressions `x = 1` and
`x == 1` parse to the same AST. -/
theorem eq_eqeq_identical_witness :
    Option.map Prod.fst (parseExpression 10 0 (initParser
      [(Token.Ident "x", ⟨0, 1⟩), (Token.Eq, ⟨2, 3⟩), (Token.Real "1", ⟨4, 5⟩)]
      ⟨5, 5⟩)) =
    Option.map Prod.fst (parseExpression 10 0 (initParser
      [(Token.Ident "x", ⟨0, 1⟩), (Token.EqEq, ⟨2, 3⟩), (Token.Real "1", ⟨4, 5⟩)]
      ⟨5, 5⟩)) :=
  eq_eqeq_identical.2 10 0 _ _ rfl

end Front

namespace Front

/-- Termination measure for the parser: tokens left to consume. The
current lookahead token counts as one unless it is `Eof`, which the
reader re-produces forever. -/
def meas (s : Pstate) : Nat :=
  s.reader.length + (if s.current = Token.Eof then 0 else 1)

/-- States reachable from a lexer-produced token stream: `Eof` never
sits inside the reader, and once the lookahead is `Eof` the reader is
exhausted. Every parser step preserves this invariant. -/
def WF (s : Pstate) : Prop :=
  (∀ sp, (Token.Eof, sp) ∉ s.reader) ∧ (s.current = Token.Eof → s.reader = [])

theorem meas_zero {s : Pstate} (h : meas s = 0) :
    s.current = Token.Eof ∧ s.reader = [] := by
  unfold meas at h
  split at h
  · next hc => exact ⟨hc, List.length_eq_zero.mp (by omega)⟩
  · omega

theorem meas_zero_of {s : Pstate} (hc : s.current = Token.Eof) (hr : s.reader = []) :
    meas s = 0 := by
  unfold meas
  rw [if_pos hc, hr]
  rfl

theorem wf_pos_ne_eof {s : Pstate} (h : WF s) (hm : 0 < meas s) :
    s.current ≠ Token.Eof := by
  intro he
  have hr := h.2 he
  rw [meas_zero_of he hr] at hm
  omega

theorem adv_le (s : Pstate) : meas (advanceToken s).2 ≤ meas s := by
  unfold advanceToken meas
  cases hr : s.reader with
  | nil => simp
  | cons t rest => simp; split <;> split <;> omega

theorem adv_lt {s : Pstate} (h : s.current ≠ Token.Eof) :
    meas (advanceToken s).2 < meas s := by
  unfold advanceToken meas
  cases hr : s.reader with
  | nil => simp [h]
  | cons t rest => simp [h]; split <;> omega

theorem adv_wf {s : Pstate} (h : WF s) : WF (advanceToken s).2 := by
  obtain ⟨h1, h2⟩ := h
  unfold advanceToken WF
  cases hr : s.reader with
  | nil => exact ⟨by simp, by simp⟩
  | cons t rest =>
    rw [hr] at h1
    constructor
    · intro sp hmem
      exact h1 sp (List.mem_cons_of_mem t hmem)
    · intro he
      simp at he
      exfalso
      apply h1 t.2
      have heq : t = (Token.Eof, t.2) := Prod.ext he rfl
      rw [← heq]
      exact List.mem_cons_self t rest

theorem adv_terminal {s : Pstate} (h : meas s = 0) :
    (advanceToken s).2 = { s with span := s.eofSpan } := by
  obtain ⟨hc, hr⟩ := meas_zero h
  unfold advanceToken
  rw [hr]
  simp [hc]

theorem meas_err (sp : Span) (m : String) (s : Pstate) : meas (err sp m s) = meas s := rfl

theorem wf_err (sp : Span) (m : String) {s : Pstate} (h : WF s) : WF (err sp m s) := h

theorem expect_le (t : Token) (s : Pstate) : meas (expect t s).2 ≤ meas s := by
  unfold expect
  split
  · exact adv_le s
  · exact Nat.le_of_eq (meas_err _ _ _)

theorem expect_wf (t : Token) {s : Pstate} (h : WF s) : WF (expect t s).2 := by
  unfold expect
  split
  · exact adv_wf h
  · exact wf_err _ _ h

theorem meas_realLit (sym : Sym) (sp : Span) (s : Pstate) :
    meas (realLit sym sp s).2 = meas s := by
  unfold realLit
  split
  · cases hexToNat? sym.data.tail <;> rfl
  · cases decToRat? sym <;> rfl

theorem wf_realLit (sym : Sym) (sp : Span) {s : Pstate} (h : WF s) :
    WF (realLit sym sp s).2 := by
  unfold realLit
  split
  · cases hexToNat? sym.data.tail <;> exact h
  · cases decToRat? sym <;> exact h

end Front

namespace Front

theorem adv_fst (s : Pstate) : (advanceToken s).1 = (s.current, s.span) := rfl

theorem meas_pos_of_ne {s : Pstate} (h : s.current ≠ Token.Eof) : 0 < meas s := by
  unfold meas
  rw [if_neg h]
  omega

/-- Totality of the whole mutual parser at a given fuel: every entry
point returns `some` whenever its fuel budget covers `8 * meas + d` for
its per-function debt `d`, never increases the measure, preserves `WF`,
and (for the statement- and expression-level entry points) strictly
decreases the measure when the lookahead is not `Eof`. These budgets are
exactly what the recursive call sites consume. -/
structure ParserGood (fuel : Nat) : Prop where
  prog : ∀ s, WF s → 2 ≤ fuel → (0 < meas s → 8 * meas s + 17 ≤ fuel) →
    ∃ r s2, parseProgram fuel s = some (r, s2) ∧ meas s2 ≤ meas s ∧ WF s2
  ploop : ∀ stmts high s, WF s → 1 ≤ fuel → (0 < meas s → 8 * meas s + 16 ≤ fuel) →
    ∃ r s2, parseProgramLoop fuel stmts high s = some (r, s2) ∧ meas s2 ≤ meas s ∧ WF s2
  stmt : ∀ s, WF s → 5 ≤ fuel → (0 < meas s → 8 * meas s + 15 ≤ fuel) →
    ∃ r s2, parseStatement fuel s = some (r, s2) ∧ meas s2 ≤ meas s ∧ WF s2 ∧
      (s.current ≠ Token.Eof → meas s2 < meas s)
  skip : ∀ high s, WF s → 1 ≤ fuel → (0 < meas s → 8 * meas s + 14 ≤ fuel) →
    ∃ r s2, skipSemicolons fuel high s = some (r, s2) ∧ meas s2 ≤ meas s ∧ WF s2
  assign : ∀ s, WF s → 4 ≤ fuel → (0 < meas s → 8 * meas s + 14 ≤ fuel) →
    ∃ r s2, parseAssignOrInvoke fuel s = some (r, s2) ∧ meas s2 ≤ meas s ∧ WF s2 ∧
      (s.current ≠ Token.Eof → meas s2 < meas s)
  declare : ∀ s, WF s → 2 ≤ fuel → (0 < meas s → 8 * meas s + 14 ≤ fuel) →
    ∃ r s2, parseDeclare fuel s = some (r, s2) ∧ meas s2 ≤ meas s ∧ WF s2 ∧
      (s.current ≠ Token.Eof → meas s2 < meas s)
  dloop : ∀ idents s, WF s → 1 ≤ fuel → (0 < meas s → 8 * meas s + 13 ≤ fuel) →
    ∃ r s2, parseDeclareLoop fuel idents s = some (r, s2) ∧ meas s2 ≤ meas s ∧ WF s2
  block : ∀ s, WF s → 2 ≤ fuel → (0 < meas s → 8 * meas s + 14 ≤ fuel) →
    ∃ r s2, parseBlock fuel s = some (r, s2) ∧ meas s2 ≤ meas s ∧ WF s2 ∧
      (s.current ≠ Token.Eof → meas s2 < meas s)
  bloop : ∀ stmts s, WF s → 1 ≤ fuel → (0 < meas s → 8 * meas s + 16 ≤ fuel) →
    ∃ r s2, parseBlockLoop fuel stmts s = some (r, s2) ∧ meas s2 ≤ meas s ∧ WF s2
  ifS : ∀ s, WF s → 6 ≤ fuel → (0 < meas s → 8 * meas s + 14 ≤ fuel) →
    ∃ r s2, parseIf fuel s = some (r, s2) ∧ meas s2 ≤ meas s ∧ WF s2 ∧
      (s.current ≠ Token.Eof → meas s2 < meas s)
  repeatS : ∀ s, WF s → 6 ≤ fuel → (0 < meas s → 8 * meas s + 14 ≤ fuel) →
    ∃ r s2, parseRepeat fuel s = some (r, s2) ∧ meas s2 ≤ meas s ∧ WF s2 ∧
      (s.current ≠ Token.Eof → meas s2 < meas s)
  whileWithS : ∀ s, WF s → 6 ≤ fuel → (0 < meas s → 8 * meas s + 14 ≤ fuel) →
    ∃ r s2, parseWhileOrWith fuel s = some (r, s2) ∧ meas s2 ≤ meas s ∧ WF s2 ∧
      (s.current ≠ Token.Eof → meas s2 < meas s)
  doS : ∀ s, WF s → 6 ≤ fuel → (0 < meas s → 8 * meas s + 14 ≤ fuel) →
    ∃ r s2, parseDo fuel s = some (r, s2) ∧ meas s2 ≤ meas s ∧ WF s2 ∧
      (s.current ≠ Token.Eof → meas s2 < meas s)
  forS : ∀ s, WF s → 6 ≤ fuel → (0 < meas s → 8 * meas s + 14 ≤ fuel) →
    ∃ r s2, parseFor fuel s = some (r, s2) ∧ meas s2 ≤ meas s ∧ WF s2 ∧
      (s.current ≠ Token.Eof → meas s2 < meas s)
  switchS : ∀ s, WF s → 3 ≤ fuel → (0 < meas s → 8 * meas s + 14 ≤ fuel) →
    ∃ r s2, parseSwitch fuel s = some (r, s2) ∧ meas s2 ≤ meas s ∧ WF s2 ∧
      (s.current ≠ Token.Eof → meas s2 < meas s)
  jump : ∀ s, WF s → 1 ≤ fuel → (0 < meas s → 8 * meas s + 14 ≤ fuel) →
    ∃ r s2, parseJump fuel s = some (r, s2) ∧ meas s2 ≤ meas s ∧ WF s2 ∧
      (s.current ≠ Token.Eof → meas s2 < meas s)
  returnS : ∀ s, WF s → 3 ≤ fuel → (0 < meas s → 8 * meas s + 14 ≤ fuel) →
    ∃ r s2, parseReturn fuel s = some (r, s2) ∧ meas s2 ≤ meas s ∧ WF s2 ∧
      (s.current ≠ Token.Eof → meas s2 < meas s)
  caseS : ∀ s, WF s → 1 ≤ fuel → (0 < meas s → 8 * meas s + 14 ≤ fuel) →
    ∃ r s2, parseCase fuel s = some (r, s2) ∧ meas s2 ≤ meas s ∧ WF s2 ∧
      (s.current ≠ Token.Eof → meas s2 < meas s)
  expr : ∀ minPrec s, WF s → 2 ≤ fuel → (0 < meas s → 8 * meas s + 12 ≤ fuel) →
    ∃ r s2, parseExpression fuel minPrec s = some (r, s2) ∧ meas s2 ≤ meas s ∧ WF s2 ∧
      (s.current ≠ Token.Eof → meas s2 < meas s)
  eloop : ∀ minPrec left lsp parens s, WF s → 1 ≤ fuel →
    (0 < meas s → 8 * meas s + 11 ≤ fuel) →
    ∃ r s2, parseExpressionLoop fuel minPrec left lsp parens s = some (r, s2) ∧
      meas s2 ≤ meas s ∧ WF s2
  pfx : ∀ s, WF s → 1 ≤ fuel → (0 < meas s → 8 * meas s + 11 ≤ fuel) →
    ∃ r s2, parsePrefixExpression fuel s = some (r, s2) ∧ meas s2 ≤ meas s ∧ WF s2 ∧
      (s.current ≠ Token.Eof → meas s2 < meas s)
  args : ∀ delim s, WF s → 2 ≤ fuel → (0 < meas s → 8 * meas s + 10 ≤ fuel) →
    ∃ r s2, parseArgs fuel delim s = some (r, s2) ∧ meas s2 ≤ meas s ∧ WF s2 ∧
      (s.current ≠ Token.Eof → meas s2 < meas s)
  aloop : ∀ delim acc s, WF s → 1 ≤ fuel → (0 < meas s → 8 * meas s + 13 ≤ fuel) →
    ∃ r s2, parseArgsLoop fuel delim acc s = some (r, s2) ∧ meas s2 ≤ meas s ∧ WF s2
  term : ∀ s, WF s → 3 ≤ fuel → (0 < meas s → 8 * meas s + 13 ≤ fuel) →
    ∃ r s2, parseTerm fuel s = some (r, s2) ∧ meas s2 ≤ meas s ∧ WF s2 ∧
      (s.current ≠ Token.Eof → meas s2 < meas s)

theorem parserGood_zero : ParserGood 0 := by
  constructor <;> (intros; omega)

theorem step_skip {f : Nat} (ih : ParserGood f) :
    ∀ high s, WF s → 1 ≤ f + 1 → (0 < meas s → 8 * meas s + 14 ≤ f + 1) →
    ∃ r s2, skipSemicolons (f+1) high s = some (r, s2) ∧ meas s2 ≤ meas s ∧ WF s2 := by
  intro high s hwf ht hd
  by_cases hsem : s.current = Token.Semicolon
  · have hne : s.current ≠ Token.Eof := by rw [hsem]; intro hcon; cases hcon
    have hpos : 0 < meas s := meas_pos_of_ne hne
    have hd8 := hd hpos
    have hlt := adv_lt hne
    have hle := adv_le s
    obtain ⟨r, s2, hrec, hle2, hwf2⟩ := ih.skip s.span.high (advanceToken s).2
      (adv_wf hwf) (by omega) (by intro h2; omega)
    refine ⟨r, s2, ?_, by omega, hwf2⟩
    simp only [skipSemicolons, if_pos hsem]
    exact hrec
  · refine ⟨high, s, ?_, Nat.le_refl _, hwf⟩
    simp only [skipSemicolons, if_neg hsem]

theorem step_jump {f : Nat} (_ih : ParserGood f) :
    ∀ s, WF s → 1 ≤ f + 1 → (0 < meas s → 8 * meas s + 14 ≤ f + 1) →
    ∃ r s2, parseJump (f+1) s = some (r, s2) ∧ meas s2 ≤ meas s ∧ WF s2 ∧
      (s.current ≠ Token.Eof → meas s2 < meas s) := by
  intro s hwf ht hd
  exact ⟨_, _, rfl, adv_le s, adv_wf hwf, fun hne => adv_lt hne⟩

end Front

namespace Front

theorem step_pfx {f : Nat} (ih : ParserGood f) :
    ∀ s, WF s → 1 ≤ f + 1 → (0 < meas s → 8 * meas s + 11 ≤ f + 1) →
    ∃ r s2, parsePrefixExpression (f+1) s = some (r, s2) ∧ meas s2 ≤ meas s ∧ WF s2 ∧
      (s.current ≠ Token.Eof → meas s2 < meas s) := by
  intro s hwf ht hd
  have hle := adv_le s
  have hwfa := adv_wf hwf
  have hunary : s.current ≠ Token.Eof →
      ∃ r s2, parseTerm f (advanceToken s).2 = some (r, s2) ∧ meas s2 ≤ meas s ∧
        WF s2 ∧ meas s2 < meas s := by
    intro hne
    have hpos := meas_pos_of_ne hne
    have hd8 := hd hpos
    have hlta := adv_lt hne
    obtain ⟨r1, s2, hterm, hle2, hwf2, _⟩ := ih.term (advanceToken s).2 hwfa
      (by omega) (by intro hp; omega)
    exact ⟨r1, s2, hterm, by omega, hwf2, by omega⟩
  cases hc : s.current
  case Ident sym =>
    have hne : s.current ≠ Token.Eof := by rw [hc]; exact fun h => nomatch h
    simp only [parsePrefixExpression, adv_fst, hc]
    exact ⟨_, _, rfl, hle, hwfa, fun _ => adv_lt hne⟩
  case String sym =>
    have hne : s.current ≠ Token.Eof := by rw [hc]; exact fun h => nomatch h
    simp only [parsePrefixExpression, adv_fst, hc]
    exact ⟨_, _, rfl, hle, hwfa, fun _ => adv_lt hne⟩
  case Real sym =>
    have hne : s.current ≠ Token.Eof := by rw [hc]; exact fun h => nomatch h
    simp only [parsePrefixExpression, adv_fst, hc]
    refine ⟨_, _, rfl, ?_, wf_realLit _ _ hwfa, fun _ => ?_⟩
    · rw [meas_realLit]; exact hle
    · rw [meas_realLit]; exact adv_lt hne
  case Bang =>
    have hne : s.current ≠ Token.Eof := by rw [hc]; exact fun h => nomatch h
    obtain ⟨r1, s2, hterm, hle2, hwf2, hlt2⟩ := hunary hne
    obtain ⟨e1, sp1⟩ := r1
    simp only [parsePrefixExpression, adv_fst, hc, hterm]
    exact ⟨_, _, rfl, by omega, hwf2, fun _ => by omega⟩
  case Tilde =>
    have hne : s.current ≠ Token.Eof := by rw [hc]; exact fun h => nomatch h
    obtain ⟨r1, s2, hterm, hle2, hwf2, hlt2⟩ := hunary hne
    obtain ⟨e1, sp1⟩ := r1
    simp only [parsePrefixExpression, adv_fst, hc, hterm]
    exact ⟨_, _, rfl, by omega, hwf2, fun _ => by omega⟩
  case BinOp op =>
    have hne : s.current ≠ Token.Eof := by rw [hc]; exact fun h => nomatch h
    cases op
    case Plus =>
      obtain ⟨r1, s2, hterm, hle2, hwf2, hlt2⟩ := hunary hne
      obtain ⟨e1, sp1⟩ := r1
      simp only [parsePrefixExpression, adv_fst, hc, hterm]
      exact ⟨_, _, rfl, by omega, hwf2, fun _ => by omega⟩
    case Minus =>
      obtain ⟨r1, s2, hterm, hle2, hwf2, hlt2⟩ := hunary hne
      obtain ⟨e1, sp1⟩ := r1
      simp only [parsePrefixExpression, adv_fst, hc, hterm]
      exact ⟨_, _, rfl, by omega, hwf2, fun _ => by omega⟩
    all_goals {
      simp only [parsePrefixExpression, adv_fst, hc]
      refine ⟨_, _, rfl, ?_, wf_err _ _ hwfa, fun _ => ?_⟩
      · rw [meas_err]; exact hle
      · rw [meas_err]; exact adv_lt hne
    }
  case OpenDelim d =>
    have hne : s.current ≠ Token.Eof := by rw [hc]; exact fun h => nomatch h
    cases d
    case Paren =>
      have hpos := meas_pos_of_ne hne
      have hd8 := hd hpos
      have hlta := adv_lt hne
      obtain ⟨r1, s2, hexpr, hle2, hwf2, _⟩ := ih.expr 0 (advanceToken s).2 hwfa
        (by omega) (by intro hp; omega)
      obtain ⟨e1, sp1⟩ := r1
      simp only [parsePrefixExpression, adv_fst, hc, hexpr]
      have hexp := expect_le (Token.CloseDelim Delim.Paren) s2
      refine ⟨_, _, rfl, by omega, expect_wf _ hwf2, fun _ => by omega⟩
    all_goals {
      simp only [parsePrefixExpression, adv_fst, hc]
      refine ⟨_, _, rfl, ?_, wf_err _ _ hwfa, fun _ => ?_⟩
      · rw [meas_err]; exact hle
      · rw [meas_err]; exact adv_lt hne
    }
  case Keyword k =>
    have hne : s.current ≠ Token.Eof := by rw [hc]; exact fun h => nomatch h
    cases k
    case True =>
      simp only [parsePrefixExpression, adv_fst, hc]
      exact ⟨_, _, rfl, hle, hwfa, fun _ => adv_lt hne⟩
    case False =>
      simp only [parsePrefixExpression, adv_fst, hc]
      exact ⟨_, _, rfl, hle, hwfa, fun _ => adv_lt hne⟩
    case Self_ =>
      simp only [parsePrefixExpression, adv_fst, hc]
      exact ⟨_, _, rfl, hle, hwfa, fun _ => adv_lt hne⟩
    case Other =>
      simp only [parsePrefixExpression, adv_fst, hc]
      exact ⟨_, _, rfl, hle, hwfa, fun _ => adv_lt hne⟩
    case All =>
      simp only [parsePrefixExpression, adv_fst, hc]
      exact ⟨_, _, rfl, hle, hwfa, fun _ => adv_lt hne⟩
    case NoOne =>
      simp only [parsePrefixExpression, adv_fst, hc]
      exact ⟨_, _, rfl, hle, hwfa, fun _ => adv_lt hne⟩
    case Global =>
      simp only [parsePrefixExpression, adv_fst, hc]
      exact ⟨_, _, rfl, hle, hwfa, fun _ => adv_lt hne⟩
    case Local =>
      simp only [parsePrefixExpression, adv_fst, hc]
      exact ⟨_, _, rfl, hle, hwfa, fun _ => adv_lt hne⟩
    case Not =>
      obtain ⟨r1, s2, hterm, hle2, hwf2, hlt2⟩ := hunary hne
      obtain ⟨e1, sp1⟩ := r1
      simp only [parsePrefixExpression, adv_fst, hc, hterm]
      exact ⟨_, _, rfl, by omega, hwf2, fun _ => by omega⟩
    all_goals {
      simp only [parsePrefixExpression, adv_fst, hc]
      refine ⟨_, _, rfl, ?_, wf_err _ _ hwfa, fun _ => ?_⟩
      · rw [meas_err]; exact hle
      · rw [meas_err]; exact adv_lt hne
    }
  case Eof =>
    simp only [parsePrefixExpression, adv_fst, hc]
    refine ⟨_, _, rfl, ?_, wf_err _ _ hwfa, fun hne => absurd rfl hne⟩
    · rw [meas_err]; exact hle
  all_goals {
    have hne : s.current ≠ Token.Eof := by rw [hc]; exact fun h => nomatch h
    simp only [parsePrefixExpression, adv_fst, hc]
    refine ⟨_, _, rfl, ?_, wf_err _ _ hwfa, fun _ => ?_⟩
    · rw [meas_err]; exact hle
    · rw [meas_err]; exact adv_lt hne
  }

end Front

namespace Front

theorem step_term {f : Nat} (ih : ParserGood f) :
    ∀ s, WF s → 3 ≤ f + 1 → (0 < meas s → 8 * meas s + 13 ≤ f + 1) →
    ∃ r s2, parseTerm (f+1) s = some (r, s2) ∧ meas s2 ≤ meas s ∧ WF s2 ∧
      (s.current ≠ Token.Eof → meas s2 < meas s) := by
  intro s hwf ht hd
  obtain ⟨r, s2, he, hle, hwf2, hlt⟩ := ih.expr 7 s hwf (by omega)
    (by intro hp; have := hd hp; omega)
  exact ⟨r, s2, by simp only [parseTerm]; exact he, hle, hwf2, hlt⟩

theorem step_expr {f : Nat} (ih : ParserGood f) :
    ∀ minPrec s, WF s → 2 ≤ f + 1 → (0 < meas s → 8 * meas s + 12 ≤ f + 1) →
    ∃ r s2, parseExpression (f+1) minPrec s = some (r, s2) ∧ meas s2 ≤ meas s ∧
      WF s2 ∧ (s.current ≠ Token.Eof → meas s2 < meas s) := by
  intro minPrec s hwf ht hd
  obtain ⟨r1, s1, hp, hle1, hwf1, hlt1⟩ := ih.pfx s hwf (by omega)
    (by intro hp0; have := hd hp0; omega)
  obtain ⟨l, ls, par⟩ := r1
  obtain ⟨r2, s2, hl, hle2, hwf2⟩ := ih.eloop minPrec l ls par s1 hwf1 (by omega)
    (by intro hp1
        have hp0 : 0 < meas s := by omega
        have := hd hp0
        omega)
  refine ⟨r2, s2, ?_, by omega, hwf2, fun hne => ?_⟩
  · simp only [parseExpression, hp]
    exact hl
  · have := hlt1 hne
    omega

end Front

namespace Front

theorem step_eloop {f : Nat} (ih : ParserGood f) :
    ∀ minPrec left lsp parens s, WF s → 1 ≤ f + 1 →
    (0 < meas s → 8 * meas s + 11 ≤ f + 1) →
    ∃ r s2, parseExpressionLoop (f+1) minPrec left lsp parens s = some (r, s2) ∧
      meas s2 ≤ meas s ∧ WF s2 := by
  intro minPrec left lsp parens s hwf ht hd
  have hbreak : ∀ (L : Ast.Expr) (LS : Span) (P : Bool),
      parseExpressionLoop (f+1) minPrec L LS P s = some ((L, LS), s) →
      ∃ r s2, parseExpressionLoop (f+1) minPrec L LS P s = some (r, s2) ∧
        meas s2 ≤ meas s ∧ WF s2 :=
    fun L LS P h => ⟨(L, LS), s, h, Nat.le_refl _, hwf⟩
  cases hft : InfixOp.from_token s.current with
  | none =>
    refine hbreak _ _ _ ?_
    simp only [parseExpressionLoop, hft]
    try rfl
  | some opprec =>
    obtain ⟨op, prec⟩ := opprec
    have hne : s.current ≠ Token.Eof := fun he => by
      rw [he] at hft
      exact nomatch hft
    have hpos := meas_pos_of_ne hne
    have hd8 := hd hpos
    by_cases hplt : prec < minPrec
    · refine hbreak _ _ _ ?_
      simp only [parseExpressionLoop, hft, if_pos hplt]
      try rfl
    · cases op with
      | Call =>
        cases left with
        | Value v =>
          cases v with
          | Ident x =>
            obtain ⟨ra, sa, hargs, hlea, hwfa2, hlta⟩ := ih.args Delim.Paren s hwf
              (by omega) (by intro hp; omega)
            have hlta2 := hlta hne
            obtain ⟨argsv, high⟩ := ra
            obtain ⟨r2, s2, hrec, hle2, hwf2⟩ := ih.eloop minPrec
              (Ast.Expr.Call (Ast.Expr.Value (Ast.Value.Ident x)) lsp argsv)
              (Span.mk lsp.low high) true sa hwfa2 (by omega) (by intro hp; omega)
            refine ⟨r2, s2, ?_, by omega, hwf2⟩
            simp only [parseExpressionLoop, hft, if_neg hplt, hargs]
            exact hrec
          | Real q =>
            refine hbreak _ _ _ ?_
            simp only [parseExpressionLoop, hft, if_neg hplt]
            try rfl
          | String str =>
            refine hbreak _ _ _ ?_
            simp only [parseExpressionLoop, hft, if_neg hplt]
            try rfl
        | Unary _ _ _ =>
          refine hbreak _ _ _ ?_
          simp only [parseExpressionLoop, hft, if_neg hplt]
          try rfl
        | Binary _ _ _ _ _ =>
          refine hbreak _ _ _ ?_
          simp only [parseExpressionLoop, hft, if_neg hplt]
          try rfl
        | Field _ _ _ _ =>
          refine hbreak _ _ _ ?_
          simp only [parseExpressionLoop, hft, if_neg hplt]
          try rfl
        | Index _ _ _ =>
          refine hbreak _ _ _ ?_
          simp only [parseExpressionLoop, hft, if_neg hplt]
          try rfl
        | Call _ _ _ =>
          refine hbreak _ _ _ ?_
          simp only [parseExpressionLoop, hft, if_neg hplt]
          try rfl
      | Index =>
        cases parens with
        | true =>
          refine hbreak _ _ _ ?_
          simp only [parseExpressionLoop, hft, if_neg hplt, if_pos rfl]
          try rfl
        | false =>
          have hargsrec : ∀ (L : Ast.Expr),
              ∃ r2 s2,
                (match parseArgs f Delim.Bracket s with
                 | none => none
                 | some ((args2, high), s3) =>
                   parseExpressionLoop f minPrec (Ast.Expr.Index L lsp args2)
                     (Span.mk lsp.low high) false s3) = some (r2, s2) ∧
                meas s2 ≤ meas s ∧ WF s2 := by
            intro L
            obtain ⟨ra, sa, hargs, hlea, hwfa2, hlta⟩ := ih.args Delim.Bracket s hwf
              (by omega) (by intro hp; omega)
            have hlta2 := hlta hne
            obtain ⟨argsv, high⟩ := ra
            obtain ⟨r2, s2, hrec, hle2, hwf2⟩ := ih.eloop minPrec
              (Ast.Expr.Index L lsp argsv) (Span.mk lsp.low high) false sa hwfa2
              (by omega) (by intro hp; omega)
            refine ⟨r2, s2, ?_, by omega, hwf2⟩
            rw [hargs]
            exact hrec
          cases left with
          | Value v =>
            cases v with
            | Ident x =>
              obtain ⟨r2, s2, hh, hle2, hwf2⟩ := hargsrec (Ast.Expr.Value (Ast.Value.Ident x))
              refine ⟨r2, s2, ?_, hle2, hwf2⟩
              simp only [parseExpressionLoop, hft, if_neg hplt]
              exact hh
            | Real q =>
              refine hbreak _ _ _ ?_
              simp only [parseExpressionLoop, hft, if_neg hplt]
              try rfl
            | String str =>
              refine hbreak _ _ _ ?_
              simp only [parseExpressionLoop, hft, if_neg hplt]
              try rfl
          | Unary _ _ _ =>
            refine hbreak _ _ _ ?_
            simp only [parseExpressionLoop, hft, if_neg hplt]
            try rfl
          | Binary _ _ _ _ _ =>
            refine hbreak _ _ _ ?_
            simp only [parseExpressionLoop, hft, if_neg hplt]
            try rfl
          | Field e es fl fs =>
            obtain ⟨r2, s2, hh, hle2, hwf2⟩ := hargsrec (Ast.Expr.Field e es fl fs)
            refine ⟨r2, s2, ?_, hle2, hwf2⟩
            simp only [parseExpressionLoop, hft, if_neg hplt]
            exact hh
          | Index _ _ _ =>
            refine hbreak _ _ _ ?_
            simp only [parseExpressionLoop, hft, if_neg hplt]
            try rfl
          | Call _ _ _ =>
            refine hbreak _ _ _ ?_
            simp only [parseExpressionLoop, hft, if_neg hplt]
            try rfl
      | Field =>
        have hlta := adv_lt hne
        have hwfa := adv_wf hwf
        have hfieldrec : ∀ (L : Ast.Expr),
            ∃ r2 s2,
              (match (advanceToken s).2.current with
               | Token.Ident field =>
                 parseExpressionLoop f minPrec
                   (Ast.Expr.Field L lsp field (advanceToken (advanceToken s).2).1.2)
                   (Span.mk lsp.low (advanceToken (advanceToken s).2).1.2.high) false
                   (advanceToken (advanceToken s).2).2
               | _ =>
                 some ((L, lsp),
                   err (advanceToken s).2.span "unexpected _; expected identifier"
                     (advanceToken s).2)) = some (r2, s2) ∧
              meas s2 ≤ meas s ∧ WF s2 := by
          intro L
          cases hc1 : (advanceToken s).2.current
          case Ident field =>
            have hle2 := adv_le (advanceToken s).2
            obtain ⟨r2, s2, hrec, hle3, hwf3⟩ := ih.eloop minPrec
              (Ast.Expr.Field L lsp field (advanceToken (advanceToken s).2).1.2)
              (Span.mk lsp.low (advanceToken (advanceToken s).2).1.2.high) false
              (advanceToken (advanceToken s).2).2 (adv_wf hwfa) (by omega)
              (by intro hp; omega)
            refine ⟨r2, s2, ?_, by omega, hwf3⟩
            exact hrec
          all_goals {
            refine ⟨_, _, rfl, ?_, wf_err _ _ hwfa⟩
            rw [meas_err]
            omega
          }
        cases left with
        | Value v =>
          cases v with
          | Ident x =>
            obtain ⟨r2, s2, hh, hle2, hwf2⟩ := hfieldrec (Ast.Expr.Value (Ast.Value.Ident x))
            refine ⟨r2, s2, ?_, hle2, hwf2⟩
            simp only [parseExpressionLoop, hft, if_neg hplt]
            exact hh
          | Real q =>
            refine hbreak _ _ _ ?_
            simp only [parseExpressionLoop, hft, if_neg hplt]
            try rfl
          | String str =>
            refine hbreak _ _ _ ?_
            simp only [parseExpressionLoop, hft, if_neg hplt]
            try rfl
        | Unary _ _ _ =>
          refine hbreak _ _ _ ?_
          simp only [parseExpressionLoop, hft, if_neg hplt]
          try rfl
        | Binary _ _ _ _ _ =>
          refine hbreak _ _ _ ?_
          simp only [parseExpressionLoop, hft, if_neg hplt]
          try rfl
        | Field e es fl fs =>
          obtain ⟨r2, s2, hh, hle2, hwf2⟩ := hfieldrec (Ast.Expr.Field e es fl fs)
          refine ⟨r2, s2, ?_, hle2, hwf2⟩
          simp only [parseExpressionLoop, hft, if_neg hplt]
          exact hh
        | Index e es iargs =>
          obtain ⟨r2, s2, hh, hle2, hwf2⟩ := hfieldrec (Ast.Expr.Index e es iargs)
          refine ⟨r2, s2, ?_, hle2, hwf2⟩
          simp only [parseExpressionLoop, hft, if_neg hplt]
          exact hh
        | Call _ _ _ =>
          refine hbreak _ _ _ ?_
          simp only [parseExpressionLoop, hft, if_neg hplt]
          try rfl
      | Binary bop =>
        have hlta := adv_lt hne
        have hwfa := adv_wf hwf
        obtain ⟨r1, s1, hexpr, hle1, hwf1, _⟩ := ih.expr (prec + 1) (advanceToken s).2
          hwfa (by omega) (by intro hp; omega)
        obtain ⟨right, rs⟩ := r1
        obtain ⟨r2, s2, hrec, hle2, hwf2⟩ := ih.eloop minPrec
          (Ast.Expr.Binary bop left lsp right rs) (Span.mk lsp.low rs.high) parens s1
          hwf1 (by omega) (by intro hp; omega)
        refine ⟨r2, s2, ?_, by omega, hwf2⟩
        simp only [parseExpressionLoop, hft, if_neg hplt, hexpr]
        exact hrec

end Front

namespace Front

theorem step_args {f : Nat} (ih : ParserGood f) :
    ∀ delim s, WF s → 2 ≤ f + 1 → (0 < meas s → 8 * meas s + 10 ≤ f + 1) →
    ∃ r s2, parseArgs (f+1) delim s = some (r, s2) ∧ meas s2 ≤ meas s ∧ WF s2 ∧
      (s.current ≠ Token.Eof → meas s2 < meas s) := by
  intro delim s hwf ht hd
  have hle1 := adv_le s
  obtain ⟨ra, sa, hal, hlea, hwfa⟩ := ih.aloop delim [] (advanceToken s).2 (adv_wf hwf)
    (by omega)
    (by intro hp
        have hpos : 0 < meas s := by omega
        have hne := wf_pos_ne_eof hwf hpos
        have := adv_lt hne
        have := hd hpos
        omega)
  by_cases hcl : sa.current = Token.CloseDelim delim
  · refine ⟨(ra, sa.span.high), (advanceToken sa).2, ?_, ?_, adv_wf hwfa, fun hne => ?_⟩
    · simp only [parseArgs, hal, if_neg (not_not_intro hcl)]
    · have := adv_le sa
      omega
    · have := adv_lt hne
      have := adv_le sa
      omega
  · refine ⟨(ra, sa.span.high), err sa.span "unexpected _; expected _ or ," sa, ?_, ?_,
      wf_err _ _ hwfa, fun hne => ?_⟩
    · simp only [parseArgs, hal, if_pos hcl]
    · rw [meas_err]
      omega
    · rw [meas_err]
      have := adv_lt hne
      omega

theorem step_aloop {f : Nat} (ih : ParserGood f) :
    ∀ delim acc s, WF s → 1 ≤ f + 1 → (0 < meas s → 8 * meas s + 13 ≤ f + 1) →
    ∃ r s2, parseArgsLoop (f+1) delim acc s = some (r, s2) ∧ meas s2 ≤ meas s ∧
      WF s2 := by
  intro delim acc s hwf ht hd
  by_cases hg : s.current ≠ Token.CloseDelim delim ∧ s.current ≠ Token.Eof
  · have hne := hg.2
    have hpos := meas_pos_of_ne hne
    have hd8 := hd hpos
    obtain ⟨r1, s1, hexpr, hle1, hwf1, hlt1⟩ := ih.expr 0 s hwf (by omega)
      (by intro hp; omega)
    have hlt2 := hlt1 hne
    by_cases hcm : s1.current = Token.Comma
    · have hadv := adv_le s1
      obtain ⟨r2, s2, hrec, hle2, hwf2⟩ := ih.aloop delim (acc ++ [r1])
        (advanceToken s1).2 (adv_wf hwf1) (by omega) (by intro hp; omega)
      refine ⟨r2, s2, ?_, by omega, hwf2⟩
      simp only [parseArgsLoop, if_pos hg, hexpr, if_pos hcm]
      exact hrec
    · refine ⟨acc ++ [r1], s1, ?_, by omega, hwf1⟩
      simp only [parseArgsLoop, if_pos hg, hexpr, if_neg hcm]
  · refine ⟨acc, s, ?_, Nat.le_refl _, hwf⟩
    simp only [parseArgsLoop, if_neg hg]

end Front

namespace Front

theorem step_assign {f : Nat} (ih : ParserGood f) :
    ∀ s, WF s → 4 ≤ f + 1 → (0 < meas s → 8 * meas s + 14 ≤ f + 1) →
    ∃ r s2, parseAssignOrInvoke (f+1) s = some (r, s2) ∧ meas s2 ≤ meas s ∧ WF s2 ∧
      (s.current ≠ Token.Eof → meas s2 < meas s) := by
  intro s hwf ht hd
  obtain ⟨r1, s1, hterm, hle1, hwf1, hlt1⟩ := ih.term s hwf (by omega)
    (by intro hp; have := hd hp; omega)
  obtain ⟨lv, lsp⟩ := r1
  cases lv
  case Call fe fsp argsv =>
    simp only [parseAssignOrInvoke, hterm]
    exact ⟨_, _, rfl, hle1, hwf1, hlt1⟩
  all_goals {
    cases hOp : assignOp? s1.current with
    | none =>
      have hwf1e : WF (err s1.span "unexpected _; expected assignment operator" s1) :=
        wf_err _ _ hwf1
      obtain ⟨r2, s2, hterm2, hle2, hwf2, hyy⟩ := ih.term _ hwf1e (by omega)
        (by intro hp
            rw [meas_err] at hp
            have hpos : 0 < meas s := by omega
            have := hd hpos
            rw [meas_err]
            omega)
      obtain ⟨e2, esp2⟩ := r2
      rw [meas_err] at hle2
      simp only [parseAssignOrInvoke, hterm, hOp, hterm2]
      exact ⟨_, _, rfl, by omega, hwf2, fun hne => by have := hlt1 hne; omega⟩
    | some op =>
      have hne1 : s1.current ≠ Token.Eof := fun he => by
        rw [he] at hOp
        exact nomatch hOp
      have hpos1 := meas_pos_of_ne hne1
      have hpos : 0 < meas s := by omega
      have hd8 := hd hpos
      have hadv := adv_lt hne1
      obtain ⟨r2, s2, hexpr, hle2, hwf2, hxx⟩ := ih.expr 0 (advanceToken s1).2
        (adv_wf hwf1) (by omega) (by intro hp; omega)
      obtain ⟨rv, rsp⟩ := r2
      simp only [parseAssignOrInvoke, hterm, hOp, hexpr]
      exact ⟨_, _, rfl, by omega, hwf2, fun hzz => by omega⟩
  }

theorem step_declare {f : Nat} (ih : ParserGood f) :
    ∀ s, WF s → 2 ≤ f + 1 → (0 < meas s → 8 * meas s + 14 ≤ f + 1) →
    ∃ r s2, parseDeclare (f+1) s = some (r, s2) ∧ meas s2 ≤ meas s ∧ WF s2 ∧
      (s.current ≠ Token.Eof → meas s2 < meas s) := by
  intro s hwf ht hd
  have hlea := adv_le s
  obtain ⟨ri, si, hdl, hlei, hwfi⟩ := ih.dloop [] (advanceToken s).2 (adv_wf hwf)
    (by omega)
    (by intro hp
        have hpos : 0 < meas s := by omega
        have := hd hpos
        omega)
  have hexp := expect_le Token.Semicolon si
  simp only [parseDeclare, hdl]
  refine ⟨_, _, rfl, by omega, expect_wf _ hwfi, fun hne => ?_⟩
  have := adv_lt hne
  omega

theorem step_dloop {f : Nat} (ih : ParserGood f) :
    ∀ idents s, WF s → 1 ≤ f + 1 → (0 < meas s → 8 * meas s + 13 ≤ f + 1) →
    ∃ r s2, parseDeclareLoop (f+1) idents s = some (r, s2) ∧ meas s2 ≤ meas s ∧
      WF s2 := by
  intro idents s hwf ht hd
  have hposcase : (s.current ≠ Token.Semicolon ∧ s.current ≠ Token.Eof) →
      ∃ r s2, parseDeclareLoop (f+1) idents s = some (r, s2) ∧ meas s2 ≤ meas s ∧
        WF s2 := by
    intro hg
    cases hc : s.current
    case Ident sym =>
        have hne := hg.2
        have hpos := meas_pos_of_ne hne
        have hd8 := hd hpos
        have hadv := adv_lt hne
        have hadv2 := adv_le (advanceToken s).2
        by_cases hcm : (advanceToken s).2.current = Token.Comma
        · obtain ⟨r2, s2, hrec, hle2, hwf2⟩ := ih.dloop (idents ++ [(sym, s.span)])
            (advanceToken (advanceToken s).2).2 (adv_wf (adv_wf hwf)) (by omega)
            (by intro hp; omega)
          refine ⟨r2, s2, ?_, by omega, hwf2⟩
          simp only [parseDeclareLoop, if_pos hg, hc, if_pos hcm]
          exact hrec
        · obtain ⟨r2, s2, hrec, hle2, hwf2⟩ := ih.dloop (idents ++ [(sym, s.span)])
            (advanceToken s).2 (adv_wf hwf) (by omega) (by intro hp; omega)
          refine ⟨r2, s2, ?_, by omega, hwf2⟩
          simp only [parseDeclareLoop, if_pos hg, hc, if_neg hcm]
          exact hrec
    all_goals {
      refine ⟨idents, s, ?_, Nat.le_refl _, hwf⟩
      simp only [parseDeclareLoop, hc]
      split <;> rfl
    }
  by_cases hg : s.current ≠ Token.Semicolon ∧ s.current ≠ Token.Eof
  · exact hposcase hg
  · refine ⟨idents, s, ?_, Nat.le_refl _, hwf⟩
    simp only [parseDeclareLoop, if_neg hg]

theorem step_bloop {f : Nat} (ih : ParserGood f) :
    ∀ stmts s, WF s → 1 ≤ f + 1 → (0 < meas s → 8 * meas s + 16 ≤ f + 1) →
    ∃ r s2, parseBlockLoop (f+1) stmts s = some (r, s2) ∧ meas s2 ≤ meas s ∧
      WF s2 := by
  intro stmts s hwf ht hd
  by_cases hg : s.current ≠ Token.CloseDelim Delim.Brace ∧
      s.current ≠ Token.Keyword Keyword.End ∧ s.current ≠ Token.Eof
  · have hne := hg.2.2
    have hpos := meas_pos_of_ne hne
    have hd8 := hd hpos
    obtain ⟨r1, s1, hstmt, hle1, hwf1, hlt1⟩ := ih.stmt s hwf (by omega)
      (by intro hp; omega)
    have hlt2 := hlt1 hne
    obtain ⟨r2, s2, hrec, hle2, hwf2⟩ := ih.bloop (stmts ++ [r1]) s1 hwf1 (by omega)
      (by intro hp; omega)
    refine ⟨r2, s2, ?_, by omega, hwf2⟩
    simp only [parseBlockLoop, if_pos hg, hstmt]
    exact hrec
  · refine ⟨stmts, s, ?_, Nat.le_refl _, hwf⟩
    simp only [parseBlockLoop, if_neg hg]

theorem step_block {f : Nat} (ih : ParserGood f) :
    ∀ s, WF s → 2 ≤ f + 1 → (0 < meas s → 8 * meas s + 14 ≤ f + 1) →
    ∃ r s2, parseBlock (f+1) s = some (r, s2) ∧ meas s2 ≤ meas s ∧ WF s2 ∧
      (s.current ≠ Token.Eof → meas s2 < meas s) := by
  intro s hwf ht hd
  have hlea := adv_le s
  obtain ⟨rb, sb, hbl, hleb, hwfb⟩ := ih.bloop [] (advanceToken s).2 (adv_wf hwf)
    (by omega)
    (by intro hp
        have hpos : 0 < meas s := by omega
        have hne := wf_pos_ne_eof hwf hpos
        have := adv_lt hne
        have := hd hpos
        omega)
  by_cases he : sb.current = Token.Eof
  · simp only [parseBlock, hbl, if_pos he]
    refine ⟨_, _, rfl, ?_, wf_err _ _ hwfb, fun hne => ?_⟩
    · rw [meas_err]
      omega
    · rw [meas_err]
      have := adv_lt hne
      omega
  · simp only [parseBlock, hbl, if_neg he]
    refine ⟨_, _, rfl, ?_, adv_wf hwfb, fun hne => ?_⟩
    · have := adv_le sb
      omega
    · have := adv_lt hne
      have := adv_le sb
      omega

end Front

namespace Front

theorem step_repeat {f : Nat} (ih : ParserGood f) :
    ∀ s, WF s → 6 ≤ f + 1 → (0 < meas s → 8 * meas s + 14 ≤ f + 1) →
    ∃ r s2, parseRepeat (f+1) s = some (r, s2) ∧ meas s2 ≤ meas s ∧ WF s2 ∧
      (s.current ≠ Token.Eof → meas s2 < meas s) := by
  intro s hwf ht hd
  have hadvle := adv_le s
  have hadvlt : 0 < meas s → meas (advanceToken s).2 < meas s :=
    fun hp => adv_lt (wf_pos_ne_eof hwf hp)
  obtain ⟨r1, s2, hexpr, hle1, hwf1, hu1⟩ := ih.expr 0 (advanceToken s).2 (adv_wf hwf)
    (by omega)
    (by intro hp
        have hpos : 0 < meas s := by omega
        have := hadvlt hpos
        have := hd hpos
        omega)
  obtain ⟨cnt, csp⟩ := r1
  obtain ⟨r2, s3, hstmt, hle2, hwf2, hu2⟩ := ih.stmt s2 hwf1 (by omega)
    (by intro hp
        have hpos : 0 < meas s := by omega
        have := hadvlt hpos
        have := hd hpos
        omega)
  obtain ⟨bd, bsp⟩ := r2
  simp only [parseRepeat, hexpr, hstmt]
  exact ⟨_, _, rfl, by omega, hwf2, fun hne => by have := adv_lt hne; omega⟩

theorem step_return {f : Nat} (ih : ParserGood f) :
    ∀ s, WF s → 3 ≤ f + 1 → (0 < meas s → 8 * meas s + 14 ≤ f + 1) →
    ∃ r s2, parseReturn (f+1) s = some (r, s2) ∧ meas s2 ≤ meas s ∧ WF s2 ∧
      (s.current ≠ Token.Eof → meas s2 < meas s) := by
  intro s hwf ht hd
  have hadvle := adv_le s
  have hadvlt : 0 < meas s → meas (advanceToken s).2 < meas s :=
    fun hp => adv_lt (wf_pos_ne_eof hwf hp)
  obtain ⟨r1, s2, hexpr, hle1, hwf1, hu1⟩ := ih.expr 0 (advanceToken s).2 (adv_wf hwf)
    (by omega)
    (by intro hp
        have hpos : 0 < meas s := by omega
        have := hadvlt hpos
        have := hd hpos
        omega)
  obtain ⟨e1, esp⟩ := r1
  simp only [parseReturn, hexpr]
  exact ⟨_, _, rfl, by omega, hwf1, fun hne => by have := adv_lt hne; omega⟩

theorem step_whileWith {f : Nat} (ih : ParserGood f) :
    ∀ s, WF s → 6 ≤ f + 1 → (0 < meas s → 8 * meas s + 14 ≤ f + 1) →
    ∃ r s2, parseWhileOrWith (f+1) s = some (r, s2) ∧ meas s2 ≤ meas s ∧ WF s2 ∧
      (s.current ≠ Token.Eof → meas s2 < meas s) := by
  intro s hwf ht hd
  have hadvle := adv_le s
  have hadvlt : 0 < meas s → meas (advanceToken s).2 < meas s :=
    fun hp => adv_lt (wf_pos_ne_eof hwf hp)
  obtain ⟨r1, s2, hexpr, hle1, hwf1, hu1⟩ := ih.expr 0 (advanceToken s).2 (adv_wf hwf)
    (by omega)
    (by intro hp
        have hpos : 0 < meas s := by omega
        have := hadvlt hpos
        have := hd hpos
        omega)
  obtain ⟨cond, csp⟩ := r1
  have hdo := adv_le s2
  have hbody : ∀ s25 : Pstate, meas s25 ≤ meas s2 → WF s25 →
      ∃ r2 s3, parseStatement f s25 = some (r2, s3) ∧ meas s3 ≤ meas s25 ∧ WF s3 := by
    intro s25 hle25 hwf25
    obtain ⟨r2, s3, hstmt, hle3, hwf3, hu⟩ := ih.stmt s25 hwf25 (by omega)
      (by intro hp
          have hpos : 0 < meas s := by omega
          have := hadvlt hpos
          have := hd hpos
          omega)
    exact ⟨r2, s3, hstmt, hle3, hwf3⟩
  by_cases hdd : s2.current = Token.Keyword Keyword.Do
  · obtain ⟨r2, s3, hstmt, hle3, hwf3⟩ := hbody (advanceToken s2).2 (adv_le s2) (adv_wf hwf1)
    obtain ⟨bd, bsp⟩ := r2
    simp only [parseWhileOrWith, hexpr, if_pos hdd, hstmt]
    exact ⟨_, _, rfl, by omega, hwf3, fun hne => by have := adv_lt hne; omega⟩
  · obtain ⟨r2, s3, hstmt, hle3, hwf3⟩ := hbody s2 (Nat.le_refl _) hwf1
    obtain ⟨bd, bsp⟩ := r2
    simp only [parseWhileOrWith, hexpr, if_neg hdd, hstmt]
    exact ⟨_, _, rfl, by omega, hwf3, fun hne => by have := adv_lt hne; omega⟩

theorem step_if {f : Nat} (ih : ParserGood f) :
    ∀ s, WF s → 6 ≤ f + 1 → (0 < meas s → 8 * meas s + 14 ≤ f + 1) →
    ∃ r s2, parseIf (f+1) s = some (r, s2) ∧ meas s2 ≤ meas s ∧ WF s2 ∧
      (s.current ≠ Token.Eof → meas s2 < meas s) := by
  intro s hwf ht hd
  have hadvle := adv_le s
  have hadvlt : 0 < meas s → meas (advanceToken s).2 < meas s :=
    fun hp => adv_lt (wf_pos_ne_eof hwf hp)
  obtain ⟨r1, s2, hexpr, hle1, hwf1, hu1⟩ := ih.expr 0 (advanceToken s).2 (adv_wf hwf)
    (by omega)
    (by intro hp
        have hpos : 0 < meas s := by omega
        have := hadvlt hpos
        have := hd hpos
        omega)
  obtain ⟨cond, csp⟩ := r1
  have hbody : ∀ s25 : Pstate, meas s25 ≤ meas s2 → WF s25 →
      ∃ r2 s3, parseStatement f s25 = some (r2, s3) ∧ meas s3 ≤ meas s25 ∧ WF s3 := by
    intro s25 hle25 hwf25
    obtain ⟨r2, s3, hstmt, hle3, hwf3, hu⟩ := ih.stmt s25 hwf25 (by omega)
      (by intro hp
          have hpos : 0 < meas s := by omega
          have := hadvlt hpos
          have := hd hpos
          omega)
    exact ⟨r2, s3, hstmt, hle3, hwf3⟩
  have hmain : ∀ s25 : Pstate, meas s25 ≤ meas s2 → WF s25 →
      ∃ r s9, (match parseStatement f s25 with
        | none => none
        | some ((tb, tsp), s5) =>
          if s5.current = Token.Keyword Keyword.Else then
            match parseStatement f (advanceToken s5).2 with
            | none => none
            | some ((fb, fsp), s6) =>
              some ((Ast.Stmt.If cond csp tb tsp (some (fb, fsp)),
                     Span.mk s.span.low fsp.high), s6)
          else
            some ((Ast.Stmt.If cond csp tb tsp none, Span.mk s.span.low tsp.high), s5)) =
        some (r, s9) ∧ meas s9 ≤ meas s25 ∧ WF s9 := by
    intro s25 hle25 hwf25
    obtain ⟨r2, s5, hstmt, hle5, hwf5⟩ := hbody s25 hle25 hwf25
    obtain ⟨tb, tsp⟩ := r2
    by_cases hel : s5.current = Token.Keyword Keyword.Else
    · obtain ⟨r3, s6, hstmt2, hle6, hwf6⟩ := hbody (advanceToken s5).2
        (by have := adv_le s5; omega) (adv_wf hwf5)
      obtain ⟨fb, fsp⟩ := r3
      simp only [hstmt, if_pos hel, hstmt2]
      exact ⟨_, _, rfl, by have := adv_le s5; omega, hwf6⟩
    · simp only [hstmt, if_neg hel]
      exact ⟨_, _, rfl, by omega, hwf5⟩
  by_cases hth : s2.current = Token.Keyword Keyword.Then
  · have hadv2 := adv_le s2
    obtain ⟨r9, s9, hm, hle9, hwf9⟩ := hmain (advanceToken s2).2 (adv_le s2) (adv_wf hwf1)
    refine ⟨r9, s9, ?_, by omega, hwf9, fun hne => by have := adv_lt hne; omega⟩
    simp only [parseIf, hexpr, if_pos hth]
    exact hm
  · obtain ⟨r9, s9, hm, hle9, hwf9⟩ := hmain s2 (Nat.le_refl _) hwf1
    refine ⟨r9, s9, ?_, by omega, hwf9, fun hne => by have := adv_lt hne; omega⟩
    simp only [parseIf, hexpr, if_neg hth]
    exact hm

theorem step_do {f : Nat} (ih : ParserGood f) :
    ∀ s, WF s → 6 ≤ f + 1 → (0 < meas s → 8 * meas s + 14 ≤ f + 1) →
    ∃ r s2, parseDo (f+1) s = some (r, s2) ∧ meas s2 ≤ meas s ∧ WF s2 ∧
      (s.current ≠ Token.Eof → meas s2 < meas s) := by
  intro s hwf ht hd
  have hadvle := adv_le s
  have hadvlt : 0 < meas s → meas (advanceToken s).2 < meas s :=
    fun hp => adv_lt (wf_pos_ne_eof hwf hp)
  obtain ⟨r1, s2, hstmt, hle1, hwf1, hu1⟩ := ih.stmt (advanceToken s).2 (adv_wf hwf)
    (by omega)
    (by intro hp
        have hpos : 0 < meas s := by omega
        have := hadvlt hpos
        have := hd hpos
        omega)
  obtain ⟨bd, bsp⟩ := r1
  have hexple := expect_le (Token.Keyword Keyword.Until) s2
  obtain ⟨r2, s3, hexpr, hle2, hwf2, hu2⟩ := ih.expr 0
    (expect (Token.Keyword Keyword.Until) s2).2 (expect_wf _ hwf1) (by omega)
    (by intro hp
        have hpos : 0 < meas s := by omega
        have := hadvlt hpos
        have := hd hpos
        omega)
  obtain ⟨e2, esp⟩ := r2
  simp only [parseDo, hstmt, hexpr]
  exact ⟨_, _, rfl, by omega, hwf2, fun hne => by have := adv_lt hne; omega⟩

theorem step_for {f : Nat} (ih : ParserGood f) :
    ∀ s, WF s → 6 ≤ f + 1 → (0 < meas s → 8 * meas s + 14 ≤ f + 1) →
    ∃ r s2, parseFor (f+1) s = some (r, s2) ∧ meas s2 ≤ meas s ∧ WF s2 ∧
      (s.current ≠ Token.Eof → meas s2 < meas s) := by
  intro s hwf ht hd
  have hadvle := adv_le s
  have hadvlt : 0 < meas s → meas (advanceToken s).2 < meas s :=
    fun hp => adv_lt (wf_pos_ne_eof hwf hp)
  have hexple := expect_le (Token.OpenDelim Delim.Paren) (advanceToken s).2
  obtain ⟨r1, s2, hstmt1, hle1, hwf1, hu1⟩ := ih.stmt
    (expect (Token.OpenDelim Delim.Paren) (advanceToken s).2).2
    (expect_wf _ (adv_wf hwf)) (by omega)
    (by intro hp
        have hpos : 0 < meas s := by omega
        have := hadvlt hpos
        have := hd hpos
        omega)
  obtain ⟨init, isp⟩ := r1
  obtain ⟨r2, s3, hexpr, hle2, hwf2, hu2⟩ := ih.expr 0 s2 hwf1 (by omega)
    (by intro hp
        have hpos : 0 < meas s := by omega
        have := hadvlt hpos
        have := hd hpos
        omega)
  obtain ⟨cond, csp⟩ := r2
  have hnextstate : ∀ s35 : Pstate, meas s35 ≤ meas s3 → WF s35 →
      ∃ r s9, (match parseStatement f s35 with
        | none => none
        | some ((next, nsp), s4) =>
          match parseStatement f (expect (Token.CloseDelim Delim.Paren) s4).2 with
          | none => none
          | some ((bd, bsp), s5) =>
            some ((Ast.Stmt.For init isp cond csp next nsp bd bsp,
                   Span.mk s.span.low s4.span.high), s5)) = some (r, s9) ∧
        meas s9 ≤ meas s35 ∧ WF s9 := by
    intro s35 hle35 hwf35
    obtain ⟨r3, s4, hstmt2, hle4, hwf4, hu3⟩ := ih.stmt s35 hwf35 (by omega)
      (by intro hp
          have hpos : 0 < meas s := by omega
          have := hadvlt hpos
          have := hd hpos
          omega)
    obtain ⟨nxt, nsp⟩ := r3
    have hexple2 := expect_le (Token.CloseDelim Delim.Paren) s4
    obtain ⟨r4, s5, hstmt3, hle5, hwf5, hu4⟩ := ih.stmt
      (expect (Token.CloseDelim Delim.Paren) s4).2 (expect_wf _ hwf4) (by omega)
      (by intro hp
          have hpos : 0 < meas s := by omega
          have := hadvlt hpos
          have := hd hpos
          omega)
    obtain ⟨bd, bsp⟩ := r4
    simp only [hstmt2, hstmt3]
    exact ⟨_, _, rfl, by omega, hwf5⟩
  by_cases hsemi : s3.current = Token.Semicolon
  · have hadv3 := adv_le s3
    obtain ⟨r9, s9, hm, hle9, hwf9⟩ := hnextstate (advanceToken s3).2 (adv_le s3)
      (adv_wf hwf2)
    refine ⟨r9, s9, ?_, by omega, hwf9, fun hne => by have := adv_lt hne; omega⟩
    simp only [parseFor, hstmt1, hexpr, if_pos hsemi]
    exact hm
  · obtain ⟨r9, s9, hm, hle9, hwf9⟩ := hnextstate s3 (Nat.le_refl _) hwf2
    refine ⟨r9, s9, ?_, by omega, hwf9, fun hne => by have := adv_lt hne; omega⟩
    simp only [parseFor, hstmt1, hexpr, if_neg hsemi]
    exact hm

theorem step_switch {f : Nat} (ih : ParserGood f) :
    ∀ s, WF s → 3 ≤ f + 1 → (0 < meas s → 8 * meas s + 14 ≤ f + 1) →
    ∃ r s2, parseSwitch (f+1) s = some (r, s2) ∧ meas s2 ≤ meas s ∧ WF s2 ∧
      (s.current ≠ Token.Eof → meas s2 < meas s) := by
  intro s hwf ht hd
  have hadvle := adv_le s
  have hadvlt : 0 < meas s → meas (advanceToken s).2 < meas s :=
    fun hp => adv_lt (wf_pos_ne_eof hwf hp)
  obtain ⟨r1, s2, hexpr, hle1, hwf1, hu1⟩ := ih.expr 0 (advanceToken s).2 (adv_wf hwf)
    (by omega)
    (by intro hp
        have hpos : 0 < meas s := by omega
        have := hadvlt hpos
        have := hd hpos
        omega)
  obtain ⟨e1, esp⟩ := r1
  have hblock : ∀ s25 : Pstate, meas s25 ≤ meas s2 → WF s25 →
      ∃ r2 s3, parseBlock f s25 = some (r2, s3) ∧ meas s3 ≤ meas s25 ∧ WF s3 := by
    intro s25 hle25 hwf25
    obtain ⟨r2, s3, hb, hle3, hwf3, hu⟩ := ih.block s25 hwf25 (by omega)
      (by intro hp
          have hpos : 0 < meas s := by omega
          have := hadvlt hpos
          have := hd hpos
          omega)
    exact ⟨r2, s3, hb, hle3, hwf3⟩
  by_cases hbr : s2.current ≠ Token.OpenDelim Delim.Brace ∧
      s2.current ≠ Token.Keyword Keyword.Begin
  · obtain ⟨r2, s3, hb, hle3, hwf3⟩ := hblock
      (err s2.span "unexpected _; expected \x7b" s2) (by rw [meas_err])
      (wf_err _ _ hwf1)
    obtain ⟨bstmt, bsp⟩ := r2
    simp only [parseSwitch, hexpr, if_pos hbr, hb]
    exact ⟨_, _, rfl, by rw [meas_err] at hle3; omega, hwf3,
      fun hne => by rw [meas_err] at hle3; have := adv_lt hne; omega⟩
  · obtain ⟨r2, s3, hb, hle3, hwf3⟩ := hblock s2 (Nat.le_refl _) hwf1
    obtain ⟨bstmt, bsp⟩ := r2
    simp only [parseSwitch, hexpr, if_neg hbr, hb]
    exact ⟨_, _, rfl, by omega, hwf3, fun hne => by have := adv_lt hne; omega⟩

theorem step_case {f : Nat} (ih : ParserGood f) :
    ∀ s, WF s → 1 ≤ f + 1 → (0 < meas s → 8 * meas s + 14 ≤ f + 1) →
    ∃ r s2, parseCase (f+1) s = some (r, s2) ∧ meas s2 ≤ meas s ∧ WF s2 ∧
      (s.current ≠ Token.Eof → meas s2 < meas s) := by
  intro s hwf ht hd
  have hadvle := adv_le s
  have hadvlt : 0 < meas s → meas (advanceToken s).2 < meas s :=
    fun hp => adv_lt (wf_pos_ne_eof hwf hp)
  have hexple := expect_le Token.Colon (advanceToken s).2
  have hneg : s.current ≠ Token.Keyword Keyword.Case →
      ∃ r s2, parseCase (f+1) s = some (r, s2) ∧ meas s2 ≤ meas s ∧ WF s2 ∧
        (s.current ≠ Token.Eof → meas s2 < meas s) := by
    intro hcs
    cases hc : s.current
    case Keyword k =>
      cases k
      case Case => exact absurd hc hcs
      all_goals {
        simp only [parseCase, adv_fst, hc]
        refine ⟨_, _, rfl, ?_, expect_wf _ (adv_wf hwf), fun hne => ?_⟩
        · omega
        · have hne2 : s.current ≠ Token.Eof := by rw [hc]; exact hne
          have := adv_lt hne2
          omega
      }
    all_goals {
      simp only [parseCase, adv_fst, hc]
      refine ⟨_, _, rfl, ?_, expect_wf _ (adv_wf hwf), fun hne => ?_⟩
      · omega
      · have hne2 : s.current ≠ Token.Eof := by rw [hc]; exact hne
        have := adv_lt hne2
        omega
    }
  by_cases hcs : s.current = Token.Keyword Keyword.Case
  · have hne : s.current ≠ Token.Eof := by rw [hcs]; exact fun h => nomatch h
    have hpos := meas_pos_of_ne hne
    have hd8 := hd hpos
    have hadv := adv_lt hne
    obtain ⟨r1, s2, hexpr, hle1, hwf1, hu1⟩ := ih.expr 0 (advanceToken s).2
      (adv_wf hwf) (by omega) (by intro hp; omega)
    obtain ⟨e1, esp⟩ := r1
    have hexple2 := expect_le Token.Colon s2
    simp only [parseCase, adv_fst, hcs, hexpr]
    exact ⟨_, _, rfl, by omega, expect_wf _ hwf1, fun hzz => by omega⟩
  · exact hneg hcs

end Front

namespace Front

theorem step_stmt {f : Nat} (ih : ParserGood f) :
    ∀ s, WF s → 5 ≤ f + 1 → (0 < meas s → 8 * meas s + 15 ≤ f + 1) →
    ∃ r s2, parseStatement (f+1) s = some (r, s2) ∧ meas s2 ≤ meas s ∧ WF s2 ∧
      (s.current ≠ Token.Eof → meas s2 < meas s) := by
  intro s hwf ht hd
  have hgo : ∀ step : Option ((Ast.Stmt × Span) × Pstate),
      (∃ r1 s1, step = some (r1, s1) ∧ meas s1 ≤ meas s ∧ WF s1 ∧
        (s.current ≠ Token.Eof → meas s1 < meas s)) →
      ∃ st sp s1 hi s3, step = some ((st, sp), s1) ∧
        skipSemicolons f sp.high s1 = some (hi, s3) ∧
        meas s3 ≤ meas s ∧ WF s3 ∧ (s.current ≠ Token.Eof → meas s3 < meas s) := by
    intro step hstep
    obtain ⟨r1, s1, heq, hle1, hwf1, hlt1⟩ := hstep
    obtain ⟨st, sp⟩ := r1
    obtain ⟨hi, s3, hskip, hle3, hwf3⟩ := ih.skip sp.high s1 hwf1 (by omega)
      (by intro hp
          have hpos : 0 < meas s := by omega
          have := hd hpos
          have := hlt1 (wf_pos_ne_eof hwf hpos)
          omega)
    exact ⟨st, sp, s1, hi, s3, heq, hskip, by omega, hwf3,
      fun hne => by have := hlt1 hne; omega⟩
  cases hc : s.current
  case Keyword k =>
    cases k
    case Var =>
        obtain ⟨r1, s1, hcall, hle1, hwf1, hlt1⟩ := ih.declare s hwf (by omega)
          (by intro hp; have := hd hp; omega)
        obtain ⟨st, sp, s1b, hi, s3, hcallE, hskip, h2, h3, h4⟩ := hgo (parseDeclare f s)
          ⟨r1, s1, hcall, hle1, hwf1, hlt1⟩
        refine ⟨(st, Span.mk s.span.low hi), s3, ?_, h2, h3,
          fun hz => h4 (by rw [hc]; exact hz)⟩
        simp only [parseStatement, hc, hcallE, hskip]
    case GlobalVar =>
        obtain ⟨r1, s1, hcall, hle1, hwf1, hlt1⟩ := ih.declare s hwf (by omega)
          (by intro hp; have := hd hp; omega)
        obtain ⟨st, sp, s1b, hi, s3, hcallE, hskip, h2, h3, h4⟩ := hgo (parseDeclare f s)
          ⟨r1, s1, hcall, hle1, hwf1, hlt1⟩
        refine ⟨(st, Span.mk s.span.low hi), s3, ?_, h2, h3,
          fun hz => h4 (by rw [hc]; exact hz)⟩
        simp only [parseStatement, hc, hcallE, hskip]
    case Begin =>
        obtain ⟨r1, s1, hcall, hle1, hwf1, hlt1⟩ := ih.block s hwf (by omega)
          (by intro hp; have := hd hp; omega)
        obtain ⟨st, sp, s1b, hi, s3, hcallE, hskip, h2, h3, h4⟩ := hgo (parseBlock f s)
          ⟨r1, s1, hcall, hle1, hwf1, hlt1⟩
        refine ⟨(st, Span.mk s.span.low hi), s3, ?_, h2, h3,
          fun hz => h4 (by rw [hc]; exact hz)⟩
        simp only [parseStatement, hc, hcallE, hskip]
    case If =>
        have hne : s.current ≠ Token.Eof := by rw [hc]; exact fun h => nomatch h
        have hpos := meas_pos_of_ne hne
        have hdf := hd hpos
        obtain ⟨r1, s1, hcall, hle1, hwf1, hlt1⟩ := ih.ifS s hwf (by omega)
          (by intro hp; have := hd hp; omega)
        obtain ⟨st, sp, s1b, hi, s3, hcallE, hskip, h2, h3, h4⟩ := hgo (parseIf f s)
          ⟨r1, s1, hcall, hle1, hwf1, hlt1⟩
        refine ⟨(st, Span.mk s.span.low hi), s3, ?_, h2, h3,
          fun hz => h4 (by rw [hc]; exact hz)⟩
        simp only [parseStatement, hc, hcallE, hskip]
    case Repeat =>
        have hne : s.current ≠ Token.Eof := by rw [hc]; exact fun h => nomatch h
        have hpos := meas_pos_of_ne hne
        have hdf := hd hpos
        obtain ⟨r1, s1, hcall, hle1, hwf1, hlt1⟩ := ih.repeatS s hwf (by omega)
          (by intro hp; have := hd hp; omega)
        obtain ⟨st, sp, s1b, hi, s3, hcallE, hskip, h2, h3, h4⟩ := hgo (parseRepeat f s)
          ⟨r1, s1, hcall, hle1, hwf1, hlt1⟩
        refine ⟨(st, Span.mk s.span.low hi), s3, ?_, h2, h3,
          fun hz => h4 (by rw [hc]; exact hz)⟩
        simp only [parseStatement, hc, hcallE, hskip]
    case While =>
        have hne : s.current ≠ Token.Eof := by rw [hc]; exact fun h => nomatch h
        have hpos := meas_pos_of_ne hne
        have hdf := hd hpos
        obtain ⟨r1, s1, hcall, hle1, hwf1, hlt1⟩ := ih.whileWithS s hwf (by omega)
          (by intro hp; have := hd hp; omega)
        obtain ⟨st, sp, s1b, hi, s3, hcallE, hskip, h2, h3, h4⟩ := hgo (parseWhileOrWith f s)
          ⟨r1, s1, hcall, hle1, hwf1, hlt1⟩
        refine ⟨(st, Span.mk s.span.low hi), s3, ?_, h2, h3,
          fun hz => h4 (by rw [hc]; exact hz)⟩
        simp only [parseStatement, hc, hcallE, hskip]
    case With =>
        have hne : s.current ≠ Token.Eof := by rw [hc]; exact fun h => nomatch h
        have hpos := meas_pos_of_ne hne
        have hdf := hd hpos
        obtain ⟨r1, s1, hcall, hle1, hwf1, hlt1⟩ := ih.whileWithS s hwf (by omega)
          (by intro hp; have := hd hp; omega)
        obtain ⟨st, sp, s1b, hi, s3, hcallE, hskip, h2, h3, h4⟩ := hgo (parseWhileOrWith f s)
          ⟨r1, s1, hcall, hle1, hwf1, hlt1⟩
        refine ⟨(st, Span.mk s.span.low hi), s3, ?_, h2, h3,
          fun hz => h4 (by rw [hc]; exact hz)⟩
        simp only [parseStatement, hc, hcallE, hskip]
    case Do =>
        have hne : s.current ≠ Token.Eof := by rw [hc]; exact fun h => nomatch h
        have hpos := meas_pos_of_ne hne
        have hdf := hd hpos
        obtain ⟨r1, s1, hcall, hle1, hwf1, hlt1⟩ := ih.doS s hwf (by omega)
          (by intro hp; have := hd hp; omega)
        obtain ⟨st, sp, s1b, hi, s3, hcallE, hskip, h2, h3, h4⟩ := hgo (parseDo f s)
          ⟨r1, s1, hcall, hle1, hwf1, hlt1⟩
        refine ⟨(st, Span.mk s.span.low hi), s3, ?_, h2, h3,
          fun hz => h4 (by rw [hc]; exact hz)⟩
        simp only [parseStatement, hc, hcallE, hskip]
    case For =>
        have hne : s.current ≠ Token.Eof := by rw [hc]; exact fun h => nomatch h
        have hpos := meas_pos_of_ne hne
        have hdf := hd hpos
        obtain ⟨r1, s1, hcall, hle1, hwf1, hlt1⟩ := ih.forS s hwf (by omega)
          (by intro hp; have := hd hp; omega)
        obtain ⟨st, sp, s1b, hi, s3, hcallE, hskip, h2, h3, h4⟩ := hgo (parseFor f s)
          ⟨r1, s1, hcall, hle1, hwf1, hlt1⟩
        refine ⟨(st, Span.mk s.span.low hi), s3, ?_, h2, h3,
          fun hz => h4 (by rw [hc]; exact hz)⟩
        simp only [parseStatement, hc, hcallE, hskip]
    case Switch =>
        obtain ⟨r1, s1, hcall, hle1, hwf1, hlt1⟩ := ih.switchS s hwf (by omega)
          (by intro hp; have := hd hp; omega)
        obtain ⟨st, sp, s1b, hi, s3, hcallE, hskip, h2, h3, h4⟩ := hgo (parseSwitch f s)
          ⟨r1, s1, hcall, hle1, hwf1, hlt1⟩
        refine ⟨(st, Span.mk s.span.low hi), s3, ?_, h2, h3,
          fun hz => h4 (by rw [hc]; exact hz)⟩
        simp only [parseStatement, hc, hcallE, hskip]
    case Break =>
        obtain ⟨r1, s1, hcall, hle1, hwf1, hlt1⟩ := ih.jump s hwf (by omega)
          (by intro hp; have := hd hp; omega)
        obtain ⟨st, sp, s1b, hi, s3, hcallE, hskip, h2, h3, h4⟩ := hgo (parseJump f s)
          ⟨r1, s1, hcall, hle1, hwf1, hlt1⟩
        refine ⟨(st, Span.mk s.span.low hi), s3, ?_, h2, h3,
          fun hz => h4 (by rw [hc]; exact hz)⟩
        simp only [parseStatement, hc, hcallE, hskip]
    case Continue =>
        obtain ⟨r1, s1, hcall, hle1, hwf1, hlt1⟩ := ih.jump s hwf (by omega)
          (by intro hp; have := hd hp; omega)
        obtain ⟨st, sp, s1b, hi, s3, hcallE, hskip, h2, h3, h4⟩ := hgo (parseJump f s)
          ⟨r1, s1, hcall, hle1, hwf1, hlt1⟩
        refine ⟨(st, Span.mk s.span.low hi), s3, ?_, h2, h3,
          fun hz => h4 (by rw [hc]; exact hz)⟩
        simp only [parseStatement, hc, hcallE, hskip]
    case Exit =>
        obtain ⟨r1, s1, hcall, hle1, hwf1, hlt1⟩ := ih.jump s hwf (by omega)
          (by intro hp; have := hd hp; omega)
        obtain ⟨st, sp, s1b, hi, s3, hcallE, hskip, h2, h3, h4⟩ := hgo (parseJump f s)
          ⟨r1, s1, hcall, hle1, hwf1, hlt1⟩
        refine ⟨(st, Span.mk s.span.low hi), s3, ?_, h2, h3,
          fun hz => h4 (by rw [hc]; exact hz)⟩
        simp only [parseStatement, hc, hcallE, hskip]
    case Return =>
        obtain ⟨r1, s1, hcall, hle1, hwf1, hlt1⟩ := ih.returnS s hwf (by omega)
          (by intro hp; have := hd hp; omega)
        obtain ⟨st, sp, s1b, hi, s3, hcallE, hskip, h2, h3, h4⟩ := hgo (parseReturn f s)
          ⟨r1, s1, hcall, hle1, hwf1, hlt1⟩
        refine ⟨(st, Span.mk s.span.low hi), s3, ?_, h2, h3,
          fun hz => h4 (by rw [hc]; exact hz)⟩
        simp only [parseStatement, hc, hcallE, hskip]
    case Case =>
        obtain ⟨r1, s1, hcall, hle1, hwf1, hlt1⟩ := ih.caseS s hwf (by omega)
          (by intro hp; have := hd hp; omega)
        obtain ⟨st, sp, s1b, hi, s3, hcallE, hskip, h2, h3, h4⟩ := hgo (parseCase f s)
          ⟨r1, s1, hcall, hle1, hwf1, hlt1⟩
        refine ⟨(st, Span.mk s.span.low hi), s3, ?_, h2, h3,
          fun hz => h4 (by rw [hc]; exact hz)⟩
        simp only [parseStatement, hc, hcallE, hskip]
    case Default =>
        obtain ⟨r1, s1, hcall, hle1, hwf1, hlt1⟩ := ih.caseS s hwf (by omega)
          (by intro hp; have := hd hp; omega)
        obtain ⟨st, sp, s1b, hi, s3, hcallE, hskip, h2, h3, h4⟩ := hgo (parseCase f s)
          ⟨r1, s1, hcall, hle1, hwf1, hlt1⟩
        refine ⟨(st, Span.mk s.span.low hi), s3, ?_, h2, h3,
          fun hz => h4 (by rw [hc]; exact hz)⟩
        simp only [parseStatement, hc, hcallE, hskip]
    all_goals {
        obtain ⟨r1, s1, hcall, hle1, hwf1, hlt1⟩ := ih.assign s hwf (by omega)
          (by intro hp; have := hd hp; omega)
        obtain ⟨st, sp, s1b, hi, s3, hcallE, hskip, h2, h3, h4⟩ := hgo (parseAssignOrInvoke f s)
          ⟨r1, s1, hcall, hle1, hwf1, hlt1⟩
        refine ⟨(st, Span.mk s.span.low hi), s3, ?_, h2, h3,
          fun hz => h4 (by rw [hc]; exact hz)⟩
        simp only [parseStatement, hc, hcallE, hskip]
    }
  case OpenDelim d =>
    cases d
    case Brace =>
        obtain ⟨r1, s1, hcall, hle1, hwf1, hlt1⟩ := ih.block s hwf (by omega)
          (by intro hp; have := hd hp; omega)
        obtain ⟨st, sp, s1b, hi, s3, hcallE, hskip, h2, h3, h4⟩ := hgo (parseBlock f s)
          ⟨r1, s1, hcall, hle1, hwf1, hlt1⟩
        refine ⟨(st, Span.mk s.span.low hi), s3, ?_, h2, h3,
          fun hz => h4 (by rw [hc]; exact hz)⟩
        simp only [parseStatement, hc, hcallE, hskip]
    all_goals {
        obtain ⟨r1, s1, hcall, hle1, hwf1, hlt1⟩ := ih.assign s hwf (by omega)
          (by intro hp; have := hd hp; omega)
        obtain ⟨st, sp, s1b, hi, s3, hcallE, hskip, h2, h3, h4⟩ := hgo (parseAssignOrInvoke f s)
          ⟨r1, s1, hcall, hle1, hwf1, hlt1⟩
        refine ⟨(st, Span.mk s.span.low hi), s3, ?_, h2, h3,
          fun hz => h4 (by rw [hc]; exact hz)⟩
        simp only [parseStatement, hc, hcallE, hskip]
    }
  all_goals {
      obtain ⟨r1, s1, hcall, hle1, hwf1, hlt1⟩ := ih.assign s hwf (by omega)
        (by intro hp; have := hd hp; omega)
      obtain ⟨st, sp, s1b, hi, s3, hcallE, hskip, h2, h3, h4⟩ := hgo (parseAssignOrInvoke f s)
        ⟨r1, s1, hcall, hle1, hwf1, hlt1⟩
      refine ⟨(st, Span.mk s.span.low hi), s3, ?_, h2, h3,
        fun hz => h4 (by rw [hc]; exact hz)⟩
      simp only [parseStatement, hc, hcallE, hskip]
  }

end Front

namespace Front

theorem step_ploop {f : Nat} (ih : ParserGood f) :
    ∀ stmts high s, WF s → 1 ≤ f + 1 → (0 < meas s → 8 * meas s + 16 ≤ f + 1) →
    ∃ r s2, parseProgramLoop (f+1) stmts high s = some (r, s2) ∧
      meas s2 ≤ meas s ∧ WF s2 := by
  intro stmts high s hwf ht hd
  by_cases hg : s.current ≠ Token.Eof
  · have hpos := meas_pos_of_ne hg
    have hdf := hd hpos
    obtain ⟨r1, s1, hstmt, hle1, hwf1, hlt1⟩ := ih.stmt s hwf (by omega)
      (by intro hp; omega)
    obtain ⟨st, sp⟩ := r1
    have hlt := hlt1 hg
    obtain ⟨r2, s2, hrec, hle2, hwf2⟩ := ih.ploop (stmts ++ [(st, sp)]) sp.high s1 hwf1
      (by omega) (by intro hp; omega)
    simp only [parseProgramLoop, if_pos hg, hstmt]
    exact ⟨r2, s2, hrec, by omega, hwf2⟩
  · simp only [parseProgramLoop, if_neg hg]
    exact ⟨_, _, rfl, Nat.le_refl _, hwf⟩

theorem step_prog {f : Nat} (ih : ParserGood f) :
    ∀ s, WF s → 2 ≤ f + 1 → (0 < meas s → 8 * meas s + 17 ≤ f + 1) →
    ∃ r s2, parseProgram (f+1) s = some (r, s2) ∧ meas s2 ≤ meas s ∧ WF s2 := by
  intro s hwf ht hd
  by_cases hbr : s.current = Token.OpenDelim Delim.Brace
  · have hne : s.current ≠ Token.Eof := by rw [hbr]; exact fun h => nomatch h
    have hpos := meas_pos_of_ne hne
    have hdf := hd hpos
    obtain ⟨r1, s1, hstmt, hle1, hwf1, hlt1⟩ := ih.stmt s hwf (by omega)
      (by intro hp; omega)
    obtain ⟨st, sp⟩ := r1
    simp only [parseProgram, if_pos hbr, hstmt]
    by_cases hfe : s1.current ≠ Token.Eof
    · simp only [if_pos hfe]
      refine ⟨_, _, rfl, ?_, wf_err _ _ hwf1⟩
      rw [meas_err]
      omega
    · simp only [if_neg hfe]
      exact ⟨_, _, rfl, by omega, hwf1⟩
  · obtain ⟨r1, s1, hloop, hle1, hwf1⟩ := ih.ploop [] s.span.low s hwf (by omega)
      (by intro hp; have := hd hp; omega)
    obtain ⟨stmts, hi⟩ := r1
    simp only [parseProgram, if_neg hbr, hloop]
    by_cases hfe : s1.current ≠ Token.Eof
    · simp only [if_pos hfe]
      refine ⟨_, _, rfl, ?_, wf_err _ _ hwf1⟩
      rw [meas_err]
      omega
    · simp only [if_neg hfe]
      exact ⟨_, _, rfl, by omega, hwf1⟩

/-- The fueled parser is total at every fuel level: induction on the
fuel, one step lemma per function of the mutual block. -/
theorem parserGood : ∀ fuel, ParserGood fuel := by
  intro fuel
  induction fuel with
  | zero => exact parserGood_zero
  | succ f ih =>
    exact ⟨step_prog ih, step_ploop ih, step_stmt ih, step_skip ih, step_assign ih,
      step_declare ih, step_dloop ih, step_block ih, step_bloop ih, step_if ih,
      step_repeat ih, step_whileWith ih, step_do ih, step_for ih, step_switch ih,
      step_jump ih, step_return ih, step_case ih, step_expr ih, step_eloop ih,
      step_pfx ih, step_args ih, step_aloop ih, step_term ih⟩

end Front

namespace Front

/-- A lexer token stream (no embedded `Eof`) initializes the parser in
a well-formed state. -/
theorem init_wf (toks : List (Token × Span)) (eofSpan : Span)
    (h : Token.Eof ∉ toks.map Prod.fst) : WF (initParser toks eofSpan) := by
  unfold initParser advanceToken WF
  cases toks with
  | nil => exact ⟨fun sp hmem => absurd hmem (List.not_mem_nil _), fun _ => rfl⟩
  | cons t rest =>
    simp only [List.map_cons, List.mem_cons] at h
    push_neg at h
    refine ⟨fun sp hmem => ?_, fun hcur => ?_⟩
    · simp only [List.tail_cons] at hmem
      exact h.2 (List.mem_map_of_mem Prod.fst hmem)
    · simp only at hcur
      exact absurd hcur.symm h.1

/-- The initial measure is bounded by the stream length plus the
lookahead. -/
theorem init_meas (toks : List (Token × Span)) (eofSpan : Span) :
    meas (initParser toks eofSpan) ≤ toks.length + 1 := by
  unfold initParser advanceToken meas
  cases toks with
  | nil => simp
  | cons t rest =>
    simp only [List.tail_cons, List.length_cons]
    split <;> omega

/-- The token stream the lexer produces for the source `x = ; y = 2`:
an assignment whose right-hand side is missing, followed by a well-formed
assignment (spans are byte offsets, modelled from the spec's lexer
section). -/
def errRecoveryToks : List (Token × Span) :=
  [(Token.Ident "x", ⟨0, 1⟩), (Token.Eq, ⟨2, 3⟩), (Token.Semicolon, ⟨4, 5⟩),
   (Token.Ident "y", ⟨6, 7⟩), (Token.Eq, ⟨8, 9⟩), (Token.Real "2", ⟨10, 11⟩)]

/-- C5: for every finite token stream (one with no embedded `Eof`),
`Parser::parse_program` terminates and returns an AST with a span: fuel
`8 * (length + 1) + 17` always suffices, so the fueled embedding returns
`some`. Moreover, on the erroneous input `x = ; y = 2` the parser reports
a diagnostic through the error handler, inserts the synthetic placeholder
`Real 0.0` for the missing right-hand side, and continues parsing the
following statement to the end of the stream — it never aborts. -/
theorem parse_program_total_and_recovers :
    (∀ toks eofSpan, Token.Eof ∉ toks.map Prod.fst →
      ∃ r s2, parseProgram (8 * (toks.length + 1) + 17) (initParser toks eofSpan) =
        some (r, s2)) ∧
    parseProgram 100 (initParser errRecoveryToks ⟨11, 11⟩) =
      some ((Ast.Stmt.Block
        [(Ast.Stmt.Assign none (Ast.Expr.Value (Ast.Value.Ident "x")) ⟨0, 1⟩
            (Ast.Expr.Value (Ast.Value.Real 0)) ⟨4, 4⟩, ⟨0, 4⟩),
         (Ast.Stmt.Assign none (Ast.Expr.Value (Ast.Value.Ident "y")) ⟨6, 7⟩
            (Ast.Expr.Value (Ast.Value.Real 2)) ⟨10, 11⟩, ⟨6, 11⟩)],
        ⟨0, 11⟩),
       ⟨[], ⟨11, 11⟩, Token.Eof, ⟨11, 11⟩,
        [(⟨6, 7⟩, "unexpected _; expected expression")]⟩) := by
  constructor
  · intro toks eofSpan h
    have hwf := init_wf toks eofSpan h
    have hm := init_meas toks eofSpan
    obtain ⟨r, s2, heq, hle, hwf2⟩ := (parserGood (8 * (toks.length + 1) + 17)).prog
      (initParser toks eofSpan) hwf (by omega) (by intro hp; omega)
    exact ⟨r, s2, heq⟩
  · rfl

theorem parse_program_total_and_recovers_witness :
    ∃ r s2, parseProgram (8 * (errRecoveryToks.length + 1) + 17)
        (initParser errRecoveryToks ⟨11, 11⟩) = some (r, s2) :=
  parse_program_total_and_recovers.1 errRecoveryToks ⟨11, 11⟩ (by decide)

end Front
